import Mathlib

/-!
Verification of the bengio_nn.py neural language model pipeline against its
design description. The Python functions are shallowly embedded: Python dicts
become insertion-ordered association lists with unique keys, the in-place
corpus rewrites become functions returning the new corpus, torch tensors
become a rows/cols/entry structure over the reals, exceptions become Except,
and the external capabilities (random source, automatic differentiation,
Spearman correlation) become explicit function parameters.
-/

/-- A Python dict with string keys: an insertion-ordered association list
whose keys are unique, as Python 3.7+ dicts behave. -/
abbrev StrDict (β : Type) := List (String × β)

/-- Lookup in a dict: Python d.get(k); the d[k] access raises KeyError in the
none case. -/
def dictGet? : StrDict β → String → Option β
  | [], _ => none
  | p :: ps, k => if p.1 = k then some p.2 else dictGet? ps k

/-- Assignment d[k] = v in a Python dict: overwrite in place when k is
present, append at the end otherwise. -/
def dictInsert : StrDict β → String → β → StrDict β
  | [], k, v => [(k, v)]
  | p :: ps, k, v => if p.1 = k then (k, v) :: ps else p :: dictInsert ps k v

/-- Lowercasing of one character as Python str.lower acts on the ASCII range
of the corpora considered here. -/
def lowerChar (c : Char) : Char :=
  if 65 ≤ c.toNat ∧ c.toNat ≤ 90 then Char.ofNat (c.toNat + 32) else c

/-- Source lowercase_corpus (lines 48-56): lowercase every word, building a
new corpus. -/
def lowercase_corpus (original_corpus : List (List String)) : List (List String) :=
  original_corpus.map (fun sent => sent.map (fun word => String.mk (word.data.map lowerChar)))

/-- One iteration of the counting loop of get_word_counts: both branches of
the source set the count to get(word, 0) + 1. -/
def countWord (d : StrDict Nat) (word : String) : StrDict Nat :=
  dictInsert d word ((dictGet? d word).getD 0 + 1)

/-- Source get_word_counts (lines 70-78): occurrence count of every word of
the corpus. -/
def get_word_counts (corpus : List (List String)) : StrDict Nat :=
  corpus.foldl (fun d sent => sent.foldl countWord d) []

/-- Source replace_rare_words (lines 88-92), with the in-place mutation
modelled as returning the new corpus. The source tests word_counts[word] is 1;
CPython caches small integers, so on the counts produced by get_word_counts
this is the value test count = 1. A word missing from word_counts would raise
KeyError in Python; dictGet? returns none there, which never compares equal
to some 1, and the function is only ever applied to the counts of the same
corpus, where every word is present. -/
def replace_rare_words (corpus : List (List String)) (word_counts : StrDict Nat) :
    List (List String) :=
  corpus.map (fun sent => sent.map (fun word =>
    if dictGet? word_counts word = some 1 then "<unk>" else word))

/-- The corpus as the training pipeline leaves it before vocabulary indexing
(source lines 58, 80, 95): lowercased, with the words occurring once replaced
by the unknown marker. -/
def normalize_corpus (raw : List (List String)) : List (List String) :=
  replace_rare_words (lowercase_corpus raw) (get_word_counts (lowercase_corpus raw))

/-- Lexicographic code-point comparison of character lists: how Python
compares strings. -/
def charListLt : List Char → List Char → Bool
  | [], [] => false
  | [], _ :: _ => true
  | _ :: _, [] => false
  | a :: as, b :: bs =>
    if a.toNat < b.toNat then true
    else if b.toNat < a.toNat then false
    else charListLt as bs

/-- Strict ascending string comparison, Python string less-than. -/
def strLtB (a b : String) : Bool := charListLt a.data b.data

/-- The comparison the sort uses: a is at most b exactly when b is not
strictly below a. -/
def strLeB (a b : String) : Bool := ! strLtB b a

/-- The sort comparison as a proposition. -/
def strLe (a b : String) : Prop := strLeB a b = true

instance : DecidableRel strLe :=
  fun a b => inferInstanceAs (Decidable (strLeB a b = true))

/-- Source lines 101-103: the keys of the post-replacement counts, extended
with the two boundary markers, sorted ascending (a stable comparison sort,
as Python list.sort; on strings any correct sort yields the same list). -/
def vocab_sorted_list (new_word_counts : StrDict Nat) : List String :=
  List.insertionSort strLe ((new_word_counts.map Prod.fst) ++ ["<s>", "</s>"])

/-- Source line 115: the dict comprehension assigning index i to the i-th
entry of the sorted vocabulary list, a later duplicate overwriting an earlier
one. -/
def enumerateDict : StrDict Nat → Nat → List String → StrDict Nat
  | d, _, [] => d
  | d, i, w :: ws => enumerateDict (dictInsert d w i) (i + 1) ws

/-- The word-to-index dictionary built from a vocabulary list. -/
def vocabularyDict (l : List String) : StrDict Nat := enumerateDict [] 0 l

/-- The vocabulary dict built from an already-normalized corpus (source lines
96-115: recount, sort with markers, index). -/
def corpus_vocabulary (c : List (List String)) : StrDict Nat :=
  vocabularyDict (vocab_sorted_list (get_word_counts c))

/-- The whole vocabulary pipeline from the raw corpus (source lines 58-115). -/
def build_vocabulary (raw : List (List String)) : StrDict Nat :=
  corpus_vocabulary (normalize_corpus raw)

/-! Tensors and the neural language model. -/

/-- A torch tensor: a rows-by-cols matrix of reals. Entries outside the index
range are irrelevant junk values. -/
structure Tensor where
  rows : Nat
  cols : Nat
  entry : Nat → Nat → ℝ

/-- The operation torch.transpose(c, 0, 1). -/
def Tensor.transpose (t : Tensor) : Tensor :=
  ⟨t.cols, t.rows, fun i j => t.entry j i⟩

/-- The operation torch.matmul: shape-checked matrix product; the torch
RuntimeError on a dimension mismatch is the error case. -/
noncomputable def matmul (A B : Tensor) : Except String Tensor :=
  if A.cols = B.rows then
    Except.ok ⟨A.rows, B.cols,
      fun i j => ∑ t ∈ Finset.range A.cols, A.entry i t * B.entry t j⟩
  else Except.error "mat1 and mat2 shapes cannot be multiplied"

/-- The operation torch.cat along dimension 0. -/
def catDim0 (A B : Tensor) : Except String Tensor :=
  if A.cols = B.cols then
    Except.ok ⟨A.rows + B.rows, A.cols,
      fun i j => if i < A.rows then A.entry i j else B.entry (i - A.rows) j⟩
  else Except.error "Sizes of tensors must match except in dimension 0"

/-- The operation torch.add on two same-shaped tensors, the only use the
source makes of it. -/
noncomputable def tadd (A B : Tensor) : Except String Tensor :=
  if A.rows = B.rows ∧ A.cols = B.cols then
    Except.ok ⟨A.rows, A.cols, fun i j => A.entry i j + B.entry i j⟩
  else Except.error "The size of tensor a must match the size of tensor b"

/-- The operation torch.tanh, elementwise. -/
noncomputable def ttanh (t : Tensor) : Tensor :=
  ⟨t.rows, t.cols, fun i j => Real.tanh (t.entry i j)⟩

/-- The per-column maximum that the numerically stable log-softmax
subtracts. -/
noncomputable def colMax (t : Tensor) (j : Nat) : ℝ :=
  ((List.range t.rows).map (fun i => t.entry i j)).foldl max (t.entry 0 j)

/-- The operation torch.nn.functional.log_softmax along dimension 0: shift by
the column maximum, exponentiate, normalize, take logs. -/
noncomputable def logSoftmaxDim0 (t : Tensor) : Tensor :=
  ⟨t.rows, t.cols, fun i j =>
    (t.entry i j - colMax t j)
      - Real.log (∑ r ∈ Finset.range t.rows, Real.exp (t.entry r j - colMax t j))⟩

/-- The one-hot row vector of size 1 by n with the 1 at the given index
(source convert_to_one_hot builds torch.zeros([1, n]) and sets position
idx). -/
def oneHotTensor (n idx : Nat) : Tensor :=
  ⟨1, n, fun r c => if r = 0 ∧ c = idx then 1 else 0⟩

/-- The five parameter tensors of the model, shaped as NLM.__init__ shapes
them (source lines 205-211): the hidden width is the hard-coded 256. -/
structure NLM where
  embedding_length : Nat
  E : Tensor
  w1 : Tensor
  b1 : Tensor
  w2 : Tensor
  b2 : Tensor

/-- Source NLM.__init__ together with initialize_parameter: the xavier-scaled
gaussian draws of the torch random source arrive through the rand argument
(tensor number, row, column). The k argument is accepted and, as in the
source, never inspected; the constructor validates nothing and can raise
nothing, hence it always returns ok. -/
def NLM.init (vocabulary_size embedding_length k : Nat)
    (rand : Nat → Nat → Nat → ℝ) : Except String NLM :=
  Except.ok
    { embedding_length := embedding_length
      E := ⟨embedding_length, vocabulary_size, rand 0⟩
      w1 := ⟨256, 256, rand 1⟩
      b1 := ⟨256, 1, rand 2⟩
      w2 := ⟨vocabulary_size, 256, rand 3⟩
      b2 := ⟨vocabulary_size, 1, rand 4⟩ }

/-- The embedding loop of forward_pass after its first iteration: each later
context vector is embedded and concatenated below X (source lines 219-226). -/
noncomputable def catEmbeddings (E : Tensor) (X : Tensor) :
    List Tensor → Except String Tensor
  | [] => Except.ok X
  | c :: cs => do
    let ej ← matmul E (Tensor.transpose c)
    let X2 ← catDim0 X ej
    catEmbeddings E X2 cs

/-- The whole embedding loop: X starts as torch.empty(embedding_length, 0);
the iteration at index 0 replaces X by its embedding (the source tests index
is 0, true for the cached integer 0), every later iteration concatenates. -/
noncomputable def buildX (E : Tensor) (embedding_length : Nat) :
    List Tensor → Except String Tensor
  | [] => Except.ok ⟨embedding_length, 0, fun _ _ => 0⟩
  | c :: cs => do
    let ej ← matmul E (Tensor.transpose c)
    catEmbeddings E ej cs

/-- Source NLM.forward_pass (lines 216-237): embed and concatenate the
context, hidden layer with tanh, output layer, log-softmax over dimension
0. -/
noncomputable def NLM.forward_pass (m : NLM) (context : List Tensor) :
    Except String Tensor := do
  let X ← buildX m.E m.embedding_length context
  let ha ← matmul m.w1 X
  let ha2 ← tadd ha m.b1
  let h := ttanh ha2
  let ya ← matmul m.w2 h
  let ya2 ← tadd ya m.b2
  Except.ok (logSoftmaxDim0 ya2)

/-- A zero-entry tensor of the given shape. -/
def zeroTensor (r c : Nat) : Tensor := ⟨r, c, fun _ _ => 0⟩

/-- A model with valid shapes for a one-word vocabulary and a one-word
context: embedding length 256, so 1 times 256 equals the hidden width. -/
def nlm_valid : NLM :=
  { embedding_length := 256
    E := zeroTensor 256 1
    w1 := zeroTensor 256 256
    b1 := zeroTensor 256 1
    w2 := zeroTensor 1 256
    b2 := zeroTensor 1 1 }

/-- A model built exactly as NLM.init builds it from the zero random source
with vocabulary size 3, embedding length 1 and k = 1, so k times the
embedding length is 1, not the hidden width 256. -/
def nlm_mismatched : NLM :=
  { embedding_length := 1
    E := ⟨1, 3, fun _ _ => 0⟩
    w1 := ⟨256, 256, fun _ _ => 0⟩
    b1 := ⟨256, 1, fun _ _ => 0⟩
    w2 := ⟨3, 256, fun _ _ => 0⟩
    b2 := ⟨3, 1, fun _ _ => 0⟩ }

/-! The context sampler. -/

/-- Python range(a, b) over integers. -/
def pyRange (a b : Int) : List Int :=
  (List.range (b - a).toNat).map (fun (n : Nat) => a + (n : Int))

/-- Python list indexing: a negative index wraps from the end, anything still
out of range raises IndexError. -/
def pyGet (l : List α) (i : Int) : Except String α :=
  let j := if i < 0 then i + l.length else i
  if h : 0 ≤ j ∧ j.toNat < l.length then Except.ok (l.get ⟨j.toNat, h.2⟩)
  else Except.error "IndexError"

/-- The dict access vocabulary[word] of the source: KeyError when absent. -/
def lookupE (v : StrDict Nat) (w : String) : Except String Nat :=
  match dictGet? v w with
  | none => Except.error "KeyError"
  | some i => Except.ok i

/-- Source convert_to_one_hot (lines 124-129): look the word up (KeyError
when absent) and build the 1 by |V| indicator row. -/
def convert_to_one_hot (word : String) (vocabulary : StrDict Nat) :
    Except String Tensor := do
  let idx ← lookupE vocabulary word
  Except.ok (oneHotTensor vocabulary.length idx)

/-- The padding of generate_training_pairs, line 152: k start markers in
front, one end marker at the back. -/
def padSentence (k : Nat) (sent : List String) : List String :=
  List.replicate k "<s>" ++ sent ++ ["</s>"]

/-- The generator loop of generate_training_pairs over one padded sentence,
carrying the running enumerate index (source lines 153-160): a position whose
word is the start marker yields nothing; every other position looks the word
up, builds the one-hot context of the k preceding positions of the padded
sentence (Python range and indexing semantics), and yields the pair. -/
def pairsLoop (vocabulary : StrDict Nat) (k : Nat) (padded : List String) :
    Nat → List String → Except String (List (Nat × List Tensor))
  | _, [] => Except.ok []
  | index, word :: rest =>
    if word ≠ "<s>" then do
      let word_idx ← lookupE vocabulary word
      let context_vec ← (pyRange ((index : Int) - (k : Int)) (index : Int)).mapM
        (fun i => do
          let w ← pyGet padded i
          convert_to_one_hot w vocabulary)
      let restPairs ← pairsLoop vocabulary k padded (index + 1) rest
      Except.ok ((word_idx, context_vec) :: restPairs)
    else pairsLoop vocabulary k padded (index + 1) rest

/-- The pairs one sentence contributes to generate_training_pairs. -/
def sentencePairs (vocabulary : StrDict Nat) (k : Nat) (sent : List String) :
    Except String (List (Nat × List Tensor)) :=
  pairsLoop vocabulary k (padSentence k sent) 0 (padSentence k sent)

/-- Source generate_training_pairs (lines 148-160): random.shuffle reorders
the caller's sentence list in place (the permutation the random source picks
arrives as the shuffle argument), then the pairs are yielded sentence by
sentence. The first component is the state of the caller's corpus after the
call; the second is the yielded sequence, interrupted by any exception. -/
def generate_training_pairs (shuffle : List (List String) → List (List String))
    (corpus : List (List String)) (vocabulary : StrDict Nat) (k : Nat) :
    List (List String) × Except String (List (Nat × List Tensor)) :=
  (shuffle corpus,
    Except.map List.flatten ((shuffle corpus).mapM (sentencePairs vocabulary k)))

/-- The pair the sampler is expected to emit for offset t into the unpadded
positions: the index of the word at padded position k + t, and the one-hot
rows of the k padded positions before it, oldest first. -/
def expectedPair (v : StrDict Nat) (k : Nat) (sent : List String) (t : Nat) :
    Nat × List Tensor :=
  ((dictGet? v ((padSentence k sent).getD (k + t) "")).getD 0,
   (List.range k).map (fun j =>
     oneHotTensor v.length ((dictGet? v ((padSentence k sent).getD (t + j) "")).getD 0)))

/-! The training loop. -/

/-- The five gradient accumulators, one per parameter tensor, the state the
torch .grad fields hold between statements of the loop body. -/
structure Grads where
  gE : Tensor
  gw1 : Tensor
  gb1 : Tensor
  gw2 : Tensor
  gb2 : Tensor

/-- The external reverse-mode differentiation capability behind
loss.backward(): given the model, the loss value of the example and the
example itself, it yields the gradient of the loss with respect to each of
the five parameters. -/
abbrev GradFn := NLM → ℝ → Nat × List Tensor → Grads

/-- Elementwise tensor addition with the first operand's shape, the form in
which backward() adds an example's gradients into the accumulators. -/
noncomputable def taddU (A B : Tensor) : Tensor :=
  ⟨A.rows, A.cols, fun i j => A.entry i j + B.entry i j⟩

/-- loss.backward(): each example gradient is added onto its accumulator. -/
noncomputable def accumGrads (acc g : Grads) : Grads :=
  ⟨taddU acc.gE g.gE, taddU acc.gw1 g.gw1, taddU acc.gb1 g.gb1,
   taddU acc.gw2 g.gw2, taddU acc.gb2 g.gb2⟩

/-- The zero tensor of the shape of the given tensor, the result of
.grad.zero_(). -/
def zeroGrad (t : Tensor) : Tensor := ⟨t.rows, t.cols, fun _ _ => 0⟩

/-- The five .grad.zero_() calls closing the loop body (source lines
347-351). -/
def zeroGradsLike (g : Grads) : Grads :=
  ⟨zeroGrad g.gE, zeroGrad g.gw1, zeroGrad g.gb1, zeroGrad g.gw2, zeroGrad g.gb2⟩

/-- Zero accumulators shaped like the model's parameters: the state of the
.grad fields at every loop boundary. -/
def zeroGradsFor (m : NLM) : Grads :=
  ⟨zeroGrad m.E, zeroGrad m.w1, zeroGrad m.b1, zeroGrad m.w2, zeroGrad m.b2⟩

/-- parameter -= learning_rate * gradient, elementwise, the in-place torch
update performed under no_grad. -/
noncomputable def sgdUpdate (p g : Tensor) (lr : ℝ) : Tensor :=
  ⟨p.rows, p.cols, fun i j => p.entry i j - lr * g.entry i j⟩

/-- The five parameter updates of the loop body (source lines 341-345): each
of w1, w2, E, b1, b2 is decremented by learning_rate times its own
accumulator; the five statements touch disjoint fields, so the sequential
source order and the simultaneous record update agree. -/
noncomputable def sgdUpdateModel (m : NLM) (g : Grads) (lr : ℝ) : NLM :=
  { embedding_length := m.embedding_length
    E := sgdUpdate m.E g.gE lr
    w1 := sgdUpdate m.w1 g.gw1 lr
    b1 := sgdUpdate m.b1 g.gb1 lr
    w2 := sgdUpdate m.w2 g.gw2 lr
    b2 := sgdUpdate m.b2 g.gb2 lr }

/-- One iteration of the training loop (source lines 335-351): forward pass,
loss = -log_y[target], backward accumulating into .grad, the five parameter
updates, the five .grad.zero_() resets. An exception out of the forward pass
aborts the loop. -/
noncomputable def train_step (gradOf : GradFn) (lr : ℝ) :
    NLM × Grads → Nat × List Tensor → Except String (NLM × Grads)
  | (m, acc), ex =>
    Bind.bind (m.forward_pass ex.2) (fun log_y =>
      Except.ok
        (sgdUpdateModel m
           (accumGrads acc (gradOf m (-(log_y.entry ex.1 0)) ex)) lr,
         zeroGradsLike
           (accumGrads acc (gradOf m (-(log_y.entry ex.1 0)) ex))))

/-- Source train (lines 334-351): a single for-loop over one freshly
shuffled sampler sequence; there is no epoch parameter and no outer epoch
loop. The first component is the caller's corpus after the call (shuffled in
place by the sampler); the second threads the model and its gradient
accumulators through the pass. -/
noncomputable def train (shuffle : List (List String) → List (List String))
    (gradOf : GradFn) (m : NLM) (corpus : List (List String))
    (vocabulary : StrDict Nat) (learning_rate : ℝ) :
    List (List String) × Except String (NLM × Grads) :=
  ((generate_training_pairs shuffle corpus vocabulary 4).1,
   Bind.bind (generate_training_pairs shuffle corpus vocabulary 4).2
     (fun pairs => pairs.foldlM (train_step gradOf learning_rate) (m, zeroGradsFor m)))

/-- Modelled from the spec words, not the source: one step of pure online
SGD over the bare model, fresh gradients each example, no accumulator
state. -/
noncomputable def sgd_spec_step (gradOf : GradFn) (lr : ℝ) (m : NLM)
    (ex : Nat × List Tensor) : Except String NLM :=
  Bind.bind (m.forward_pass ex.2) (fun log_y =>
    Except.ok (sgdUpdateModel m (gradOf m (-(log_y.entry ex.1 0)) ex) lr))

/-- Modelled from the spec words, not the source: train(model, corpus,
vocabulary, learningRate, epochCount) runs epochCount epochs, each over a
fresh sampler sequence. -/
noncomputable def train_epochs_spec
    (shuffle : List (List String) → List (List String)) (gradOf : GradFn)
    (corpus : List (List String)) (vocabulary : StrDict Nat) (lr : ℝ) :
    NLM → Nat → Except String NLM
  | m, 0 => Except.ok m
  | m, epochCount + 1 =>
    Bind.bind (generate_training_pairs shuffle corpus vocabulary 4).2
      (fun pairs =>
        Bind.bind (pairs.foldlM (sgd_spec_step gradOf lr) m)
          (fun m2 =>
            train_epochs_spec shuffle gradOf corpus vocabulary lr m2 epochCount))

def cexVocab : StrDict Nat := [("</s>", 0), ("<s>", 1), ("a", 2)]

noncomputable def onesGradFn : GradFn :=
  fun _ _ _ =>
    ⟨⟨0, 0, fun _ _ => 1⟩, ⟨0, 0, fun _ _ => 1⟩, ⟨0, 0, fun _ _ => 1⟩,
     ⟨0, 0, fun _ _ => 1⟩, ⟨0, 0, fun _ _ => 1⟩⟩

def cexModel : NLM :=
  { embedding_length := 64
    E := zeroTensor 64 3
    w1 := zeroTensor 256 256
    b1 := zeroTensor 256 1
    w2 := zeroTensor 3 256
    b2 := zeroTensor 3 1 }

/-! Cosine similarity and the word-similarity evaluation. -/

/-- torch.dot on two 1-D vectors. -/
noncomputable def dotR (u v : List ℝ) : ℝ :=
  (List.zipWith (fun a b => a * b) u v).sum

/-- torch.norm: the Euclidean norm of a 1-D vector. -/
noncomputable def normR (u : List ℝ) : ℝ :=
  Real.sqrt ((u.map (fun a => a * a)).sum)

/-- Source get_cosine_similarity (lines 418-420): the bare quotient with no
zero-norm guard of any kind; a zero denominator flows through real division,
whose junk value 0 models the silent float NaN. -/
noncomputable def get_cosine_similarity (embedding1 embedding2 : List ℝ) : ℝ :=
  dotR embedding1 embedding2 / (normR embedding1 * normR embedding2)

/-- The column embedding_matrix[:, idx] as a 1-D vector. -/
noncomputable def tensorColumn (t : Tensor) (idx : Nat) : List ℝ :=
  (List.range t.rows).map (fun i => t.entry i idx)

/-- Source evaluate_wordsim (lines 436-451): each word of each pair resolves
to its vocabulary index, with a membership test first and the unknown-word
index substituted when the word is absent, so the only dict access that can
fail is the one on the unknown-marker key itself; the cosine similarities of
the embedding columns at the resolved indices are handed with the gold
scores to the external spearmanr capability. -/
noncomputable def evaluate_wordsim (word_pairs : List (String × String))
    (gold_scores : List ℝ) (embedding_matrix : Tensor)
    (vocabulary : StrDict Nat) (spearman : List ℝ → List ℝ → ℝ × ℝ) :
    Except String (ℝ × ℝ) :=
  Bind.bind
    (word_pairs.mapM (fun pairs =>
      Bind.bind
        (if (dictGet? vocabulary pairs.1).isSome then lookupE vocabulary pairs.1
         else lookupE vocabulary "<unk>")
        (fun word_one_index =>
          Bind.bind
            (if (dictGet? vocabulary pairs.2).isSome then lookupE vocabulary pairs.2
             else lookupE vocabulary "<unk>")
            (fun word_two_index =>
              Except.ok (get_cosine_similarity
                (tensorColumn embedding_matrix word_one_index)
                (tensorColumn embedding_matrix word_two_index))))))
    (fun similarity_list => Except.ok (spearman similarity_list gold_scores))

/-! ## Theorems -/

/-! Dictionary lemmas. -/

theorem dictGet?_dictInsert (d : StrDict β) (k k' : String) (v : β) :
    dictGet? (dictInsert d k v) k' = if k' = k then some v else dictGet? d k' := by
  induction d with
  | nil =>
    by_cases h : k' = k
    · simp [dictInsert, dictGet?, h]
    · simp [dictInsert, dictGet?, h, Ne.symm h]
  | cons p ps ih =>
    by_cases hp : p.1 = k
    · subst hp
      by_cases h : k' = p.1
      · simp [dictInsert, dictGet?, h]
      · simp [dictInsert, dictGet?, h, Ne.symm h]
    · have hd : dictInsert (p :: ps) k v = p :: dictInsert ps k v := by
        simp only [dictInsert, if_neg hp]
      by_cases h : k' = k
      · subst h
        have hp2 : ¬ p.1 = k' := hp
        simp [hd, dictGet?, hp2, ih]
      · by_cases hpk : p.1 = k'
        · simp [hd, dictGet?, hpk, h]
        · simp [hd, dictGet?, hpk, h, ih]

theorem dictGet?_eq_none_iff (d : StrDict β) (w : String) :
    dictGet? d w = none ↔ w ∉ d.map Prod.fst := by
  induction d with
  | nil => simp [dictGet?]
  | cons p ps ih =>
    simp only [dictGet?, List.map_cons, List.mem_cons]
    by_cases h : p.1 = w
    · simp [h]
    · have h2 : ¬ w = p.1 := fun hh => h hh.symm
      simp [if_neg h, ih, not_or, h2]

theorem mem_keys_dictInsert (d : StrDict β) (k : String) (v : β) (w : String) :
    w ∈ (dictInsert d k v).map Prod.fst ↔ w ∈ d.map Prod.fst ∨ w = k := by
  induction d with
  | nil => simp [dictInsert]
  | cons p ps ih =>
    by_cases hp : p.1 = k
    · simp [dictInsert, hp]
      tauto
    · simp [dictInsert, hp, ih]
      tauto

theorem nodup_keys_dictInsert (d : StrDict β) (k : String) (v : β)
    (h : (d.map Prod.fst).Nodup) : ((dictInsert d k v).map Prod.fst).Nodup := by
  induction d with
  | nil => simp [dictInsert]
  | cons p ps ih =>
    simp only [List.map_cons, List.nodup_cons] at h
    by_cases hp : p.1 = k
    · have hd : dictInsert (p :: ps) k v = (k, v) :: ps := by
        simp only [dictInsert, if_pos hp]
      rw [hd]
      simp only [List.map_cons, List.nodup_cons]
      exact ⟨fun hk => h.1 (by rw [hp]; exact hk), h.2⟩
    · have hd : dictInsert (p :: ps) k v = p :: dictInsert ps k v := by
        simp only [dictInsert, if_neg hp]
      rw [hd]
      simp only [List.map_cons, List.nodup_cons]
      refine ⟨fun hmem => ?_, ih h.2⟩
      rcases (mem_keys_dictInsert ps k v p.1).mp hmem with hin | heq
      · exact h.1 hin
      · exact hp heq

theorem dictInsert_of_not_mem (d : StrDict β) (k : String) (v : β)
    (h : k ∉ d.map Prod.fst) : dictInsert d k v = d ++ [(k, v)] := by
  induction d with
  | nil => simp [dictInsert]
  | cons p ps ih =>
    simp only [List.map_cons, List.mem_cons] at h
    push_neg at h
    have hp : p.1 ≠ k := fun hh => h.1 hh.symm
    simp [dictInsert, hp, ih h.2]

/-! Word-count lemmas. -/

theorem countWord_fold (l : List String) (d : StrDict Nat) (w : String) :
    dictGet? (l.foldl countWord d) w =
      if l.count w = 0 then dictGet? d w
      else some ((dictGet? d w).getD 0 + l.count w) := by
  induction l generalizing d with
  | nil => simp
  | cons x xs ih =>
    by_cases h : w = x
    · subst h
      have hins : dictGet? (countWord d w) w = some ((dictGet? d w).getD 0 + 1) := by
        rw [countWord, dictGet?_dictInsert, if_pos rfl]
      rw [List.foldl_cons, ih, hins, List.count_cons_self]
      have hne : ¬ (xs.count w + 1 = 0) := by omega
      rw [if_neg hne]
      by_cases h0 : xs.count w = 0
      · simp [h0]
      · rw [if_neg h0]
        simp only [Option.getD_some]
        congr 1
        omega
    · have hins : dictGet? (countWord d x) w = dictGet? d w := by
        rw [countWord, dictGet?_dictInsert, if_neg h]
      have hxw : ¬ x = w := fun hh => h hh.symm
      have hcount : (x :: xs).count w = xs.count w := by
        simp [List.count_cons, hxw]
      rw [List.foldl_cons, ih, hins, hcount]

theorem get_word_counts_spec (corpus : List (List String)) (w : String) :
    dictGet? (get_word_counts corpus) w =
      if corpus.flatten.count w = 0 then none
      else some (corpus.flatten.count w) := by
  have h := countWord_fold corpus.flatten [] w
  rw [get_word_counts, ← List.foldl_flatten]
  simpa [dictGet?] using h

theorem nodup_keys_countWord_fold (l : List String) (d : StrDict Nat)
    (h : (d.map Prod.fst).Nodup) : ((l.foldl countWord d).map Prod.fst).Nodup := by
  induction l generalizing d with
  | nil => simpa
  | cons x xs ih => exact ih _ (nodup_keys_dictInsert _ _ _ h)

theorem nodup_keys_get_word_counts (c : List (List String)) :
    ((get_word_counts c).map Prod.fst).Nodup := by
  rw [get_word_counts, ← List.foldl_flatten]
  exact nodup_keys_countWord_fold _ [] (by simp)

theorem mem_keys_get_word_counts (c : List (List String)) (w : String) :
    w ∈ (get_word_counts c).map Prod.fst ↔ w ∈ c.flatten := by
  rw [← not_iff_not, ← dictGet?_eq_none_iff, get_word_counts_spec]
  by_cases h : c.flatten.count w = 0
  · simp [h, List.count_eq_zero.mp h]
  · have hw : w ∈ c.flatten := List.count_pos_iff.mp (Nat.pos_of_ne_zero h)
    simp [h, hw]

/-- The replacement map of replace_rare_words, applied to the counts of the
corpus itself, replaces exactly the words whose occurrence count is one. -/
theorem replace_fun_eq (corpus : List (List String)) :
    (fun word => if dictGet? (get_word_counts corpus) word = some 1 then "<unk>" else word)
      = (fun word => if corpus.flatten.count word = 1 then "<unk>" else word) := by
  funext w
  rw [get_word_counts_spec]
  by_cases h : corpus.flatten.count w = 0
  · simp [h]
  · simp [h]

/-- C5: on the corpus together with its own word counts, replace_rare_words
replaces every occurrence of every word of count exactly one (value equality)
by the unknown marker and leaves every other word unchanged; in particular
the corpus [[a, a, b]] normalizes to [[a, a, unk]]. -/
theorem replace_rare_words_exactly_singletons :
    (∀ corpus : List (List String),
        replace_rare_words corpus (get_word_counts corpus) =
          corpus.map (fun sent => sent.map (fun word =>
            if corpus.flatten.count word = 1 then "<unk>" else word)))
    ∧ replace_rare_words [["a", "a", "b"]] (get_word_counts [["a", "a", "b"]]) =
        [["a", "a", "<unk>"]] := by
  constructor
  · intro corpus
    rw [replace_rare_words, replace_fun_eq]
  · rfl

/-! Order lemmas for the string comparison. -/

theorem charListLt_irrefl (as : List Char) : charListLt as as = false := by
  induction as with
  | nil => rfl
  | cons a as ih => simp [charListLt, ih]

theorem charListLt_asymm (as bs : List Char) (h : charListLt as bs = true) :
    charListLt bs as = false := by
  induction as generalizing bs with
  | nil =>
    cases bs with
    | nil => simp [charListLt] at h
    | cons b bs => simp [charListLt]
  | cons a as ih =>
    cases bs with
    | nil => simp [charListLt] at h
    | cons b bs =>
      by_cases h1 : a.toNat < b.toNat
      · have h2 : ¬ b.toNat < a.toNat := by omega
        simp [charListLt, h1, h2]
      · by_cases h2 : b.toNat < a.toNat
        · simp [charListLt, h1, h2] at h
        · simp only [charListLt, if_neg h1, if_neg h2] at h
          simp only [charListLt, if_neg h2, if_neg h1]
          exact ih bs h

theorem charListLt_trans_or (cs as bs : List Char) (h : charListLt cs as = true) :
    charListLt cs bs = true ∨ charListLt bs as = true := by
  induction cs generalizing as bs with
  | nil =>
    cases as with
    | nil => simp [charListLt] at h
    | cons a as =>
      cases bs with
      | nil => right; simp [charListLt]
      | cons b bs => left; simp [charListLt]
  | cons c cs ih =>
    cases as with
    | nil => simp [charListLt] at h
    | cons a as =>
      cases bs with
      | nil => right; simp [charListLt]
      | cons b bs =>
        rcases Nat.lt_trichotomy c.toNat b.toNat with hcb | hcb | hcb
        · left; simp [charListLt, hcb]
        · rcases Nat.lt_trichotomy b.toNat a.toNat with hba | hba | hba
          · right; simp [charListLt, hba]
          · have h1 : ¬ c.toNat < a.toNat := by omega
            have h2 : ¬ a.toNat < c.toNat := by omega
            simp only [charListLt, if_neg h1, if_neg h2] at h
            have h3 : ¬ c.toNat < b.toNat := by omega
            have h4 : ¬ b.toNat < c.toNat := by omega
            have h5 : ¬ b.toNat < a.toNat := by omega
            have h6 : ¬ a.toNat < b.toNat := by omega
            rcases ih as bs h with hL | hR
            · left; simp [charListLt, if_neg h3, if_neg h4, hL]
            · right; simp [charListLt, if_neg h5, if_neg h6, hR]
          · have h1 : ¬ c.toNat < a.toNat := by omega
            have h2 : a.toNat < c.toNat := by omega
            have hfalse : charListLt (c :: cs) (a :: as) = false := by
              simp only [charListLt]
              rw [if_neg h1, if_pos h2]
            rw [hfalse] at h
            exact absurd h Bool.false_ne_true
        · have hgoal : b.toNat < a.toNat ∨ False := by
            by_cases hca : c.toNat < a.toNat
            · left; omega
            · by_cases hac : a.toNat < c.toNat
              · simp [charListLt, if_neg hca, hac] at h
              · left; omega
          rcases hgoal with hba | hfalse
          · right; simp [charListLt, hba]
          · exact absurd hfalse (fun x => x)

theorem strLeB_trans (a b c : String) (h1 : strLeB a b = true) (h2 : strLeB b c = true) :
    strLeB a c = true := by
  simp only [strLeB, strLtB, Bool.not_eq_true'] at h1 h2 ⊢
  by_contra hcon
  rw [Bool.not_eq_false] at hcon
  rcases charListLt_trans_or c.data a.data b.data hcon with hx | hx
  · rw [h2] at hx
    exact Bool.false_ne_true hx
  · rw [h1] at hx
    exact Bool.false_ne_true hx

theorem strLeB_total (a b : String) : (strLeB a b || strLeB b a) = true := by
  simp only [strLeB, strLtB, Bool.or_eq_true, Bool.not_eq_true']
  cases hb : charListLt b.data a.data with
  | false => left; rfl
  | true => right; exact charListLt_asymm _ _ hb

instance : IsTotal String strLe :=
  ⟨fun a b => by
    have h := strLeB_total a b
    rw [Bool.or_eq_true] at h
    exact h⟩

instance : IsTrans String strLe :=
  ⟨strLeB_trans⟩

theorem vocab_sorted_list_pairwise (wc : StrDict Nat) :
    List.Pairwise strLe (vocab_sorted_list wc) :=
  List.sorted_insertionSort strLe _

/-! Structure of the vocabulary dictionary. -/

theorem dictGet?_enumerateDict_eq_none (l : List String) (d : StrDict Nat) (i : Nat)
    (w : String) :
    dictGet? (enumerateDict d i l) w = none ↔ dictGet? d w = none ∧ w ∉ l := by
  induction l generalizing d i with
  | nil => simp [enumerateDict]
  | cons x xs ih =>
    simp only [enumerateDict]
    rw [ih]
    rw [dictGet?_dictInsert]
    by_cases h : w = x
    · simp [h]
    · simp [h, List.mem_cons]

theorem enumerateDict_eq_append_zip (l : List String) (d : StrDict Nat) (i : Nat)
    (hn : l.Nodup) (hf : ∀ w ∈ l, w ∉ d.map Prod.fst) :
    enumerateDict d i l = d ++ l.zip (List.range' i l.length) := by
  induction l generalizing d i with
  | nil => simp [enumerateDict]
  | cons x xs ih =>
    simp only [List.nodup_cons] at hn
    have hx : x ∉ d.map Prod.fst := hf x (List.mem_cons_self x xs)
    have hf2 : ∀ w ∈ xs, w ∉ (d ++ [(x, i)]).map Prod.fst := by
      intro w hw
      simp only [List.map_append, List.mem_append, List.map_cons, List.map_nil,
        List.mem_singleton, not_or]
      refine ⟨hf w (List.mem_cons_of_mem x hw), fun he => hn.1 (he ▸ hw)⟩
    simp only [enumerateDict]
    rw [dictInsert_of_not_mem d x i hx, ih (d ++ [(x, i)]) (i + 1) hn.2 hf2,
      List.length_cons, List.range'_succ, List.zip_cons_cons, List.append_assoc,
      List.singleton_append]

theorem vocabularyDict_eq_zip (l : List String) (hn : l.Nodup) :
    vocabularyDict l = l.zip (List.range' 0 l.length) := by
  have h := enumerateDict_eq_append_zip l [] 0 hn (by simp)
  simpa [vocabularyDict] using h

theorem dictGet?_zip_range' (l : List String) (hn : l.Nodup) (s i : Nat)
    (h : i < l.length) :
    dictGet? (l.zip (List.range' s l.length)) (l.get ⟨i, h⟩) = some (s + i) := by
  induction l generalizing s i with
  | nil => simp at h
  | cons x xs ih =>
    simp only [List.nodup_cons] at hn
    cases i with
    | zero =>
      show dictGet? ((x, s) :: xs.zip (List.range' (s + 1) xs.length)) x = some (s + 0)
      simp [dictGet?]
    | succ n =>
      have hn2 : n < xs.length := by
        simpa using h
      have hx : ¬ x = xs.get ⟨n, hn2⟩ :=
        fun he => hn.1 (by rw [he]; exact List.get_mem xs n hn2)
      show dictGet? ((x, s) :: xs.zip (List.range' (s + 1) xs.length))
          (xs.get ⟨n, hn2⟩) = some (s + (n + 1))
      simp only [dictGet?, if_neg hx]
      rw [ih hn.2 (s + 1) n hn2]
      congr 1
      omega

theorem mem_zip_range' (l : List String) (s : Nat) (p : String × Nat)
    (h : p ∈ l.zip (List.range' s l.length)) :
    ∃ i, ∃ hi : i < l.length, p.1 = l.get ⟨i, hi⟩ ∧ p.2 = s + i := by
  induction l generalizing s with
  | nil => simp at h
  | cons x xs ih =>
    rw [List.length_cons, List.range'_succ, List.zip_cons_cons] at h
    rcases List.mem_cons.mp h with h0 | h1
    · subst h0
      exact ⟨0, Nat.succ_pos xs.length, rfl, rfl⟩
    · obtain ⟨i, hi, he1, he2⟩ := ih (s + 1) h1
      refine ⟨i + 1, Nat.succ_lt_succ hi, ?_, ?_⟩
      · exact he1
      · omega

theorem mem_keys_vocabularyDict (l : List String) (w : String) :
    w ∈ (vocabularyDict l).map Prod.fst ↔ w ∈ l := by
  rw [← not_iff_not, ← dictGet?_eq_none_iff, vocabularyDict,
    dictGet?_enumerateDict_eq_none]
  simp [dictGet?]

theorem isSome_dictGet?_vocabularyDict (l : List String) (w : String) :
    (dictGet? (vocabularyDict l) w).isSome ↔ w ∈ l := by
  rw [Option.isSome_iff_ne_none]
  rw [ne_eq, vocabularyDict, dictGet?_enumerateDict_eq_none]
  simp [dictGet?]

theorem mem_snd_dictInsert (d : StrDict β) (k : String) (v : β) (x : β)
    (h : x ∈ (dictInsert d k v).map Prod.snd) : x ∈ d.map Prod.snd ∨ x = v := by
  induction d with
  | nil =>
    simp [dictInsert] at h
    right
    exact h
  | cons p ps ih =>
    by_cases hp : p.1 = k
    · rw [show dictInsert (p :: ps) k v = (k, v) :: ps from by
        simp only [dictInsert, if_pos hp]] at h
      simp only [List.map_cons, List.mem_cons] at h
      rcases h with h | h
      · right; exact h
      · left; simp [h]
    · rw [show dictInsert (p :: ps) k v = p :: dictInsert ps k v from by
        simp only [dictInsert, if_neg hp]] at h
      simp only [List.map_cons, List.mem_cons] at h
      rcases h with h | h
      · left; simp [h]
      · rcases ih h with h2 | h2
        · left; simp [h2]
        · right; exact h2

theorem mem_dictInsert_elim (d : StrDict β) (k : String) (v : β) (p : String × β)
    (h : p ∈ dictInsert d k v) : p ∈ d ∨ p = (k, v) := by
  induction d with
  | nil =>
    simp [dictInsert] at h
    right
    exact h
  | cons q qs ih =>
    by_cases hq : q.1 = k
    · rw [show dictInsert (q :: qs) k v = (k, v) :: qs from by
        simp only [dictInsert, if_pos hq]] at h
      rcases List.mem_cons.mp h with h | h
      · right; exact h
      · left; exact List.mem_cons_of_mem q h
    · rw [show dictInsert (q :: qs) k v = q :: dictInsert qs k v from by
        simp only [dictInsert, if_neg hq]] at h
      rcases List.mem_cons.mp h with h | h
      · left; rw [h]; exact List.mem_cons_self q qs
      · rcases ih h with h2 | h2
        · left; exact List.mem_cons_of_mem q h2
        · right; exact h2

theorem nodup_snd_dictInsert (d : StrDict Nat) (k : String) (i : Nat)
    (hv : (d.map Prod.snd).Nodup) (hlt : ∀ p ∈ d, p.2 < i) :
    ((dictInsert d k i).map Prod.snd).Nodup := by
  induction d with
  | nil => simp [dictInsert]
  | cons p ps ih =>
    simp only [List.map_cons, List.nodup_cons] at hv
    by_cases hp : p.1 = k
    · rw [show dictInsert (p :: ps) k i = (k, i) :: ps from by
        simp only [dictInsert, if_pos hp]]
      simp only [List.map_cons, List.nodup_cons]
      refine ⟨fun hmem => ?_, hv.2⟩
      obtain ⟨q, hq, hq2⟩ := List.mem_map.mp hmem
      have := hlt q (List.mem_cons_of_mem p hq)
      omega
    · rw [show dictInsert (p :: ps) k i = p :: dictInsert ps k i from by
        simp only [dictInsert, if_neg hp]]
      simp only [List.map_cons, List.nodup_cons]
      constructor
      · intro hmem
        rcases mem_snd_dictInsert ps k i p.2 hmem with h2 | h2
        · exact hv.1 h2
        · have := hlt p (List.mem_cons_self p ps)
          omega
      · exact ih hv.2 (fun q hq => hlt q (List.mem_cons_of_mem p hq))

theorem enumerateDict_values (l : List String) (d : StrDict Nat) (i : Nat)
    (hv : (d.map Prod.snd).Nodup) (hlt : ∀ p ∈ d, p.2 < i) :
    ((enumerateDict d i l).map Prod.snd).Nodup
    ∧ ∀ p ∈ enumerateDict d i l, p.2 < i + l.length := by
  induction l generalizing d i with
  | nil =>
    simp only [enumerateDict]
    exact ⟨hv, fun p hp => by have := hlt p hp; simp; omega⟩
  | cons x xs ih =>
    simp only [enumerateDict]
    have hv2 := nodup_snd_dictInsert d x i hv hlt
    have hlt2 : ∀ p ∈ dictInsert d x i, p.2 < i + 1 := by
      intro p hp
      rcases mem_dictInsert_elim d x i p hp with h | h
      · have := hlt p h
        omega
      · rw [h]
        omega
    obtain ⟨ha, hb⟩ := ih (dictInsert d x i) (i + 1) hv2 hlt2
    refine ⟨ha, fun p hp => ?_⟩
    have := hb p hp
    simp only [List.length_cons]
    omega

theorem nodup_keys_enumerateDict (l : List String) (d : StrDict Nat) (i : Nat)
    (h : (d.map Prod.fst).Nodup) : ((enumerateDict d i l).map Prod.fst).Nodup := by
  induction l generalizing d i with
  | nil => simpa [enumerateDict]
  | cons x xs ih =>
    simp only [enumerateDict]
    exact ih _ _ (nodup_keys_dictInsert d x i h)

theorem length_vocabularyDict (l : List String) :
    (vocabularyDict l).length = l.dedup.length := by
  have hk : ((vocabularyDict l).map Prod.fst).Nodup :=
    nodup_keys_enumerateDict l [] 0 (by simp)
  have hperm : ((vocabularyDict l).map Prod.fst).Perm l.dedup :=
    (List.perm_ext_iff_of_nodup hk (List.nodup_dedup l)).mpr
      (fun a => by rw [mem_keys_vocabularyDict, List.mem_dedup])
  calc (vocabularyDict l).length
      = ((vocabularyDict l).map Prod.fst).length := (List.length_map _ _).symm
    _ = l.dedup.length := hperm.length_eq

theorem dedup_length_lt_of_not_nodup [DecidableEq α] (l : List α) (h : ¬ l.Nodup) :
    l.dedup.length < l.length := by
  rcases Nat.lt_or_ge l.dedup.length l.length with hlt | hge
  · exact hlt
  · exfalso
    have hle := (List.dedup_sublist l).length_le
    have heq : l.dedup.length = l.length := by omega
    have hdl := (List.dedup_sublist l).eq_of_length heq
    exact h (hdl ▸ List.nodup_dedup l)

theorem corpus_vocabulary_structure (c : List (List String))
    (h1 : "<s>" ∉ c.flatten) (h2 : "</s>" ∉ c.flatten) :
    (vocab_sorted_list (get_word_counts c)).Nodup
    ∧ corpus_vocabulary c
        = (vocab_sorted_list (get_word_counts c)).zip
            (List.range' 0 (vocab_sorted_list (get_word_counts c)).length)
    ∧ (vocab_sorted_list (get_word_counts c)).length = (get_word_counts c).length + 2 := by
  have hpre_nodup : (((get_word_counts c).map Prod.fst) ++ ["<s>", "</s>"]).Nodup := by
    rw [List.nodup_append]
    refine ⟨nodup_keys_get_word_counts c, by decide, ?_⟩
    intro a ha hb
    have hmem := (mem_keys_get_word_counts c a).mp ha
    have hab : a = "<s>" ∨ a = "</s>" := by simpa using hb
    rcases hab with rfl | rfl
    · exact h1 hmem
    · exact h2 hmem
  have hperm : (vocab_sorted_list (get_word_counts c)).Perm
      (((get_word_counts c).map Prod.fst) ++ ["<s>", "</s>"]) :=
    List.perm_insertionSort strLe _
  have hnodup : (vocab_sorted_list (get_word_counts c)).Nodup :=
    hperm.nodup_iff.mpr hpre_nodup
  refine ⟨hnodup, vocabularyDict_eq_zip _ hnodup, ?_⟩
  rw [hperm.length_eq]
  simp [List.length_append, List.length_map]

/-- Tokens of the normalized corpus are the lowercased tokens with the
singleton words replaced. -/
theorem normalize_corpus_flatten (raw : List (List String)) :
    (normalize_corpus raw).flatten
      = (lowercase_corpus raw).flatten.map
          (fun w => if (lowercase_corpus raw).flatten.count w = 1 then "<unk>" else w) := by
  rw [normalize_corpus]
  rw [show replace_rare_words (lowercase_corpus raw) (get_word_counts (lowercase_corpus raw))
      = (lowercase_corpus raw).map (fun sent => sent.map
          (fun w => if (lowercase_corpus raw).flatten.count w = 1 then "<unk>" else w)) from by
    rw [replace_rare_words, replace_fun_eq]]
  rw [← List.map_flatten]

/-- C4 (amended): provided the normalized corpus contains no literal
boundary-marker token, the vocabulary dict has exactly the distinct surviving
words plus the two boundary markers, it contains the unknown marker exactly
when some lowercased word occurs exactly once or the literal unknown-marker
token itself occurs in the lowercased corpus, and indices are assigned in
ascending lexicographic code-point order, the boundary markers sorting among
the ordinary words. -/
theorem vocabulary_size_order_unk (raw : List (List String))
    (h1 : "<s>" ∉ (normalize_corpus raw).flatten)
    (h2 : "</s>" ∉ (normalize_corpus raw).flatten) :
    (build_vocabulary raw).length = (get_word_counts (normalize_corpus raw)).length + 2
    ∧ ((dictGet? (build_vocabulary raw) "<unk>").isSome ↔
        ((∃ w, (lowercase_corpus raw).flatten.count w = 1)
          ∨ "<unk>" ∈ (lowercase_corpus raw).flatten))
    ∧ (∀ p ∈ build_vocabulary raw, ∀ q ∈ build_vocabulary raw,
        strLtB p.1 q.1 = true → p.2 < q.2) := by
  obtain ⟨hnodup, hzip, hlen⟩ :=
    corpus_vocabulary_structure (normalize_corpus raw) h1 h2
  have hbv : build_vocabulary raw = corpus_vocabulary (normalize_corpus raw) := rfl
  refine ⟨?_, ?_, ?_⟩
  · rw [hbv, hzip, List.length_zip, List.length_range']
    simpa using hlen
  · rw [hbv,
      show corpus_vocabulary (normalize_corpus raw)
          = vocabularyDict (vocab_sorted_list (get_word_counts (normalize_corpus raw)))
        from rfl,
      isSome_dictGet?_vocabularyDict]
    have hperm : (vocab_sorted_list (get_word_counts (normalize_corpus raw))).Perm
        (((get_word_counts (normalize_corpus raw)).map Prod.fst) ++ ["<s>", "</s>"]) :=
      List.perm_insertionSort strLe _
    rw [hperm.mem_iff, List.mem_append, mem_keys_get_word_counts,
      normalize_corpus_flatten]
    have hmk : ("<unk>" ∈ (["<s>", "</s>"] : List String)) = False := by
      simp
    rw [hmk, or_false]
    constructor
    · intro hmem
      obtain ⟨w, hw, hfw⟩ := List.mem_map.mp hmem
      by_cases hc : (lowercase_corpus raw).flatten.count w = 1
      · exact Or.inl ⟨w, hc⟩
      · rw [if_neg hc] at hfw
        exact Or.inr (hfw ▸ hw)
    · intro hmem
      rcases hmem with ⟨w, hc⟩ | hunk
      · have hw : w ∈ (lowercase_corpus raw).flatten := by
          rw [← List.count_pos_iff, hc]
          omega
        exact List.mem_map.mpr ⟨w, hw, by rw [if_pos hc]⟩
      · refine List.mem_map.mpr ⟨"<unk>", hunk, ?_⟩
        by_cases hc : (lowercase_corpus raw).flatten.count "<unk>" = 1
        · rw [if_pos hc]
        · rw [if_neg hc]
  · intro p hp q hq hlt
    rw [hbv, hzip] at hp hq
    obtain ⟨a, ha, hp1, hp2⟩ := mem_zip_range' _ 0 p hp
    obtain ⟨b, hb, hq1, hq2⟩ := mem_zip_range' _ 0 q hq
    have hpg := List.pairwise_iff_get.mp
      (vocab_sorted_list_pairwise (get_word_counts (normalize_corpus raw)))
    have hab : a < b := by
      rcases Nat.lt_trichotomy a b with hab | hab | hab
      · exact hab
      · exfalso
        rw [hp1, hq1] at hlt
        subst hab
        have hirr : strLtB
            ((vocab_sorted_list (get_word_counts (normalize_corpus raw))).get ⟨a, ha⟩)
            ((vocab_sorted_list (get_word_counts (normalize_corpus raw))).get ⟨a, hb⟩) = false :=
          charListLt_irrefl _
        rw [hirr] at hlt
        exact Bool.false_ne_true hlt
      · exfalso
        have hle := hpg ⟨b, hb⟩ ⟨a, ha⟩ hab
        rw [hp1, hq1] at hlt
        simp only [strLe, strLeB] at hle
        rw [hlt] at hle
        simp at hle
    omega

/-- C4 counterexample: on the corpus holding the literal token unk twice, the
vocabulary contains the unknown marker although no word of the corpus has
frequency exactly one, refuting the claimed equivalence as stated for every
input corpus. -/
theorem vocabulary_unk_without_singleton :
    (dictGet? (build_vocabulary [["<unk>", "<unk>"]]) "<unk>").isSome = true
    ∧ ¬ ∃ w, (lowercase_corpus [["<unk>", "<unk>"]]).flatten.count w = 1 := by
  constructor
  · decide
  · rintro ⟨w, hw⟩
    have hfl : (lowercase_corpus [["<unk>", "<unk>"]]).flatten = ["<unk>", "<unk>"] := by
      decide
    rw [hfl] at hw
    by_cases h : w = "<unk>"
    · subst h
      simp [List.count_cons] at hw
    · have hne : w ∉ (["<unk>", "<unk>"] : List String) := by
        simp [h]
      rw [List.count_eq_zero.mpr hne] at hw
      exact one_ne_zero hw.symm

/-- C4 witness: the amended statement instantiated on the concrete corpus
[[a, a, b]], whose word b is a singleton and becomes the unknown marker. -/
theorem vocabulary_size_order_unk_witness :
    ("<s>" ∉ (normalize_corpus [["a", "a", "b"]]).flatten)
    ∧ ("</s>" ∉ (normalize_corpus [["a", "a", "b"]]).flatten)
    ∧ ((build_vocabulary [["a", "a", "b"]]).length
          = (get_word_counts (normalize_corpus [["a", "a", "b"]])).length + 2
      ∧ ((dictGet? (build_vocabulary [["a", "a", "b"]]) "<unk>").isSome ↔
          ((∃ w, (lowercase_corpus [["a", "a", "b"]]).flatten.count w = 1)
            ∨ "<unk>" ∈ (lowercase_corpus [["a", "a", "b"]]).flatten))
      ∧ (∀ p ∈ build_vocabulary [["a", "a", "b"]],
          ∀ q ∈ build_vocabulary [["a", "a", "b"]],
          strLtB p.1 q.1 = true → p.2 < q.2)) :=
  ⟨by decide, by decide,
    vocabulary_size_order_unk [["a", "a", "b"]] (by decide) (by decide)⟩

/-- C10: over a normalized corpus free of literal boundary-marker tokens the
word-to-index dict is a bijection onto the index range: every assigned index
is below the dict size, distinct words receive distinct indices, and every
index below the dict size is assigned. When the corpus does contain a literal
boundary marker, duplicate entries collapse, the dict is strictly smaller
than the sorted vocabulary list, and some index in the enumerated range is
assigned to no word. -/
theorem vocabulary_dict_onto_range (c : List (List String)) :
    (("<s>" ∉ c.flatten ∧ "</s>" ∉ c.flatten) →
        (∀ p ∈ corpus_vocabulary c, p.2 < (corpus_vocabulary c).length)
        ∧ (∀ p ∈ corpus_vocabulary c, ∀ q ∈ corpus_vocabulary c,
            p.1 ≠ q.1 → p.2 ≠ q.2)
        ∧ (∀ i, i < (corpus_vocabulary c).length →
            ∃ w, dictGet? (corpus_vocabulary c) w = some i))
    ∧ (("<s>" ∈ c.flatten ∨ "</s>" ∈ c.flatten) →
        (corpus_vocabulary c).length < (vocab_sorted_list (get_word_counts c)).length
        ∧ ∃ i, i < (vocab_sorted_list (get_word_counts c)).length
            ∧ ∀ p ∈ corpus_vocabulary c, p.2 ≠ i) := by
  constructor
  · rintro ⟨h1, h2⟩
    obtain ⟨hnodup, hzip, hlen⟩ := corpus_vocabulary_structure c h1 h2
    have hdictlen : (corpus_vocabulary c).length
        = (vocab_sorted_list (get_word_counts c)).length := by
      rw [hzip, List.length_zip, List.length_range']
      simp
    have hvals_nodup : ((corpus_vocabulary c).map Prod.snd).Nodup := by
      rw [hzip, List.map_snd_zip _ _ (by rw [List.length_range'])]
      exact List.nodup_range' _ _
    refine ⟨?_, ?_, ?_⟩
    · intro p hp
      rw [hzip] at hp
      obtain ⟨a, ha, hp1, hp2⟩ := mem_zip_range' _ 0 p hp
      omega
    · intro p hp q hq hne hsnd
      have hpq := List.inj_on_of_nodup_map hvals_nodup hp hq hsnd
      exact hne (by rw [hpq])
    · intro i hi
      rw [hdictlen] at hi
      refine ⟨(vocab_sorted_list (get_word_counts c)).get ⟨i, hi⟩, ?_⟩
      have h := dictGet?_zip_range' _ hnodup 0 i hi
      rw [← hzip] at h
      simpa using h
  · intro hm
    have hdup : ¬ (((get_word_counts c).map Prod.fst) ++ ["<s>", "</s>"]).Nodup := by
      intro hn
      rw [List.nodup_append] at hn
      rcases hm with hm | hm
      · exact hn.2.2 ((mem_keys_get_word_counts c "<s>").mpr hm) (by simp)
      · exact hn.2.2 ((mem_keys_get_word_counts c "</s>").mpr hm) (by simp)
    have hnodup_sorted : ¬ (vocab_sorted_list (get_word_counts c)).Nodup := by
      intro hn
      exact hdup ((List.perm_insertionSort strLe _).nodup_iff.mp hn)
    have hldict : (corpus_vocabulary c).length
        = (vocab_sorted_list (get_word_counts c)).dedup.length :=
      length_vocabularyDict _
    have hlt := dedup_length_lt_of_not_nodup _ hnodup_sorted
    refine ⟨by omega, ?_⟩
    obtain ⟨hvnodup0, hvbound0⟩ :=
      enumerateDict_values (vocab_sorted_list (get_word_counts c)) [] 0
        (by simp) (by simp)
    have hvnodup : ((corpus_vocabulary c).map Prod.snd).Nodup := hvnodup0
    have hvbound : ∀ p ∈ corpus_vocabulary c,
        p.2 < (vocab_sorted_list (get_word_counts c)).length := by
      intro p hp
      have := hvbound0 p hp
      omega
    by_contra hcon
    push_neg at hcon
    have hsub : Finset.range (vocab_sorted_list (get_word_counts c)).length ⊆
        ((corpus_vocabulary c).map Prod.snd).toFinset := by
      intro i hi
      rw [Finset.mem_range] at hi
      obtain ⟨p, hp, hpe⟩ := hcon i hi
      rw [List.mem_toFinset]
      exact List.mem_map.mpr ⟨p, hp, hpe⟩
    have hcard := Finset.card_le_card hsub
    rw [Finset.card_range, List.toFinset_card_of_nodup hvnodup, List.length_map] at hcard
    omega

/-- C10 witness: the bijection on the marker-free corpus [[a]] and the
collapse on the corpus [[s-marker, s-marker]]. -/
theorem vocabulary_dict_onto_range_witness :
    (("<s>" ∉ ([["a"]] : List (List String)).flatten
        ∧ "</s>" ∉ ([["a"]] : List (List String)).flatten)
      ∧ ((∀ p ∈ corpus_vocabulary [["a"]], p.2 < (corpus_vocabulary [["a"]]).length)
        ∧ (∀ p ∈ corpus_vocabulary [["a"]], ∀ q ∈ corpus_vocabulary [["a"]],
            p.1 ≠ q.1 → p.2 ≠ q.2)
        ∧ (∀ i, i < (corpus_vocabulary [["a"]]).length →
            ∃ w, dictGet? (corpus_vocabulary [["a"]]) w = some i)))
    ∧ (("<s>" ∈ ([["<s>", "<s>"]] : List (List String)).flatten
        ∨ "</s>" ∈ ([["<s>", "<s>"]] : List (List String)).flatten)
      ∧ ((corpus_vocabulary [["<s>", "<s>"]]).length
            < (vocab_sorted_list (get_word_counts [["<s>", "<s>"]])).length
        ∧ ∃ i, i < (vocab_sorted_list (get_word_counts [["<s>", "<s>"]])).length
            ∧ ∀ p ∈ corpus_vocabulary [["<s>", "<s>"]], p.2 ≠ i)) :=
  ⟨⟨by decide, (vocabulary_dict_onto_range [["a"]]).1 (by decide)⟩,
    ⟨by decide, (vocabulary_dict_onto_range [["<s>", "<s>"]]).2 (by decide)⟩⟩

/-! Shape lemmas for the forward pass. -/

theorem matmul_ok (A B : Tensor) (h : A.cols = B.rows) :
    matmul A B = Except.ok ⟨A.rows, B.cols,
      fun i j => ∑ t ∈ Finset.range A.cols, A.entry i t * B.entry t j⟩ := by
  simp only [matmul]
  rw [if_pos h]

theorem matmul_err (A B : Tensor) (h : ¬ A.cols = B.rows) :
    matmul A B = Except.error "mat1 and mat2 shapes cannot be multiplied" := by
  simp only [matmul]
  rw [if_neg h]

theorem catDim0_ok (A B : Tensor) (h : A.cols = B.cols) :
    catDim0 A B = Except.ok ⟨A.rows + B.rows, A.cols,
      fun i j => if i < A.rows then A.entry i j else B.entry (i - A.rows) j⟩ := by
  simp only [catDim0]
  rw [if_pos h]

theorem tadd_ok (A B : Tensor) (h : A.rows = B.rows ∧ A.cols = B.cols) :
    tadd A B = Except.ok ⟨A.rows, A.cols, fun i j => A.entry i j + B.entry i j⟩ := by
  simp only [tadd]
  rw [if_pos h]

theorem bind_ok_eq (a : α) (f : α → Except ε γ) :
    Bind.bind (Except.ok a) f = f a := rfl

theorem bind_err_eq (e : ε) (f : α → Except ε γ) :
    Bind.bind (Except.error e) f = Except.error e := rfl

theorem matmul_shape (A B : Tensor) (h : A.cols = B.rows) :
    ∃ C, matmul A B = Except.ok C ∧ C.rows = A.rows ∧ C.cols = B.cols :=
  ⟨_, matmul_ok A B h, rfl, rfl⟩

theorem catDim0_shape (A B : Tensor) (h : A.cols = B.cols) :
    ∃ C, catDim0 A B = Except.ok C ∧ C.rows = A.rows + B.rows ∧ C.cols = A.cols :=
  ⟨_, catDim0_ok A B h, rfl, rfl⟩

theorem tadd_shape (A B : Tensor) (h : A.rows = B.rows ∧ A.cols = B.cols) :
    ∃ C, tadd A B = Except.ok C ∧ C.rows = A.rows ∧ C.cols = A.cols :=
  ⟨_, tadd_ok A B h, rfl, rfl⟩

theorem catEmbeddings_shape (E : Tensor) (V : Nat) (hEc : E.cols = V)
    (cs : List Tensor) (X : Tensor) (hXc : X.cols = 1)
    (hcs : ∀ c ∈ cs, c.rows = 1 ∧ c.cols = V) :
    ∃ Y, catEmbeddings E X cs = Except.ok Y
      ∧ Y.rows = X.rows + cs.length * E.rows ∧ Y.cols = 1 := by
  induction cs generalizing X with
  | nil => exact ⟨X, rfl, by simp, hXc⟩
  | cons c cs ih =>
    have hc := hcs c (List.mem_cons_self c cs)
    obtain ⟨ej, hej, hejr, hejc⟩ := matmul_shape E (Tensor.transpose c)
      (by simp [Tensor.transpose, hEc, hc.2])
    have hejc1 : ej.cols = 1 := by
      rw [hejc]
      simp [Tensor.transpose, hc.1]
    obtain ⟨X2, hX2, hX2r, hX2c⟩ := catDim0_shape X ej (by rw [hXc, hejc1])
    obtain ⟨Y, hY, hYr, hYc⟩ := ih X2 (by rw [hX2c, hXc])
      (fun c2 hc2 => hcs c2 (List.mem_cons_of_mem c hc2))
    refine ⟨Y, ?_, ?_, hYc⟩
    · simp only [catEmbeddings]
      rw [hej, bind_ok_eq, hX2, bind_ok_eq]
      exact hY
    · rw [hYr, hX2r, hejr]
      show X.rows + E.rows + cs.length * E.rows = X.rows + (c :: cs).length * E.rows
      rw [List.length_cons]
      ring

theorem buildX_shape (E : Tensor) (V eml : Nat) (hEc : E.cols = V)
    (cs : List Tensor) (hne : cs ≠ [])
    (hcs : ∀ c ∈ cs, c.rows = 1 ∧ c.cols = V) :
    ∃ Y, buildX E eml cs = Except.ok Y
      ∧ Y.rows = cs.length * E.rows ∧ Y.cols = 1 := by
  cases cs with
  | nil => exact absurd rfl hne
  | cons c cs =>
    have hc := hcs c (List.mem_cons_self c cs)
    obtain ⟨ej, hej, hejr, hejc⟩ := matmul_shape E (Tensor.transpose c)
      (by simp [Tensor.transpose, hEc, hc.2])
    have hejc1 : ej.cols = 1 := by
      rw [hejc]
      simp [Tensor.transpose, hc.1]
    obtain ⟨Y, hY, hYr, hYc⟩ := catEmbeddings_shape E V hEc cs ej hejc1
      (fun c2 hc2 => hcs c2 (List.mem_cons_of_mem c hc2))
    refine ⟨Y, ?_, ?_, hYc⟩
    · simp only [buildX]
      rw [hej, bind_ok_eq]
      exact hY
    · rw [hYr, hejr]
      show E.rows + cs.length * E.rows = (c :: cs).length * E.rows
      rw [List.length_cons]
      ring

theorem forward_pass_ok (m : NLM) (context : List Tensor) (V : Nat)
    (hEc : m.E.cols = V)
    (hw1 : m.w1.rows = 256 ∧ m.w1.cols = 256)
    (hb1 : m.b1.rows = 256 ∧ m.b1.cols = 1)
    (hw2 : m.w2.rows = V ∧ m.w2.cols = 256)
    (hb2 : m.b2.rows = V ∧ m.b2.cols = 1)
    (hctx : ∀ c ∈ context, c.rows = 1 ∧ c.cols = V)
    (hne : context ≠ [])
    (hk : context.length * m.E.rows = 256) :
    ∃ ya, NLM.forward_pass m context = Except.ok (logSoftmaxDim0 ya)
      ∧ ya.rows = V ∧ ya.cols = 1 := by
  obtain ⟨X, hX, hXr, hXc⟩ :=
    buildX_shape m.E V m.embedding_length hEc context hne hctx
  obtain ⟨ha, hha, hhar, hhac⟩ := matmul_shape m.w1 X (by rw [hw1.2, hXr, hk])
  obtain ⟨ha2, hha2, hha2r, hha2c⟩ := tadd_shape ha m.b1
    (by rw [hhar, hhac, hXc, hw1.1, hb1.1, hb1.2]; exact ⟨rfl, rfl⟩)
  obtain ⟨ya, hya, hyar, hyac⟩ := matmul_shape m.w2 (ttanh ha2)
    (by simp [ttanh, hha2r, hhar, hw1.1, hw2.2])
  obtain ⟨ya2, hya2, hya2r, hya2c⟩ := tadd_shape ya m.b2
    (by constructor
        · rw [hyar, hw2.1, hb2.1]
        · rw [hyac]
          show ha2.cols = m.b2.cols
          rw [hha2c, hhac, hXc, hb2.2])
  refine ⟨ya2, ?_, ?_, ?_⟩
  · simp only [NLM.forward_pass]
    rw [hX, bind_ok_eq, hha, bind_ok_eq, hha2, bind_ok_eq, hya, bind_ok_eq,
      hya2, bind_ok_eq]
  · rw [hya2r, hyar, hw2.1]
  · rw [hya2c, hyac]
    show ha2.cols = 1
    rw [hha2c, hhac, hXc]

theorem sum_exp_logSoftmaxDim0 (t : Tensor) (j : Nat) (h : 0 < t.rows) :
    ∑ i ∈ Finset.range t.rows, Real.exp ((logSoftmaxDim0 t).entry i j) = 1 := by
  have hS : 0 < ∑ r ∈ Finset.range t.rows, Real.exp (t.entry r j - colMax t j) :=
    Finset.sum_pos (fun r _ => Real.exp_pos _) ⟨0, Finset.mem_range.mpr h⟩
  have hcong : ∀ i ∈ Finset.range t.rows,
      Real.exp ((logSoftmaxDim0 t).entry i j)
        = Real.exp (t.entry i j - colMax t j)
          / (∑ r ∈ Finset.range t.rows, Real.exp (t.entry r j - colMax t j)) := by
    intro i _
    show Real.exp ((t.entry i j - colMax t j)
        - Real.log (∑ r ∈ Finset.range t.rows, Real.exp (t.entry r j - colMax t j))) = _
    rw [Real.exp_sub, Real.exp_log hS]
  rw [Finset.sum_congr rfl hcong, ← Finset.sum_div, div_self (ne_of_gt hS)]

/-- C3: for every parameter setting of valid shapes and every nonempty window
of one-hot context vectors whose total embedding width matches the hidden
width, forward_pass returns a vector of length V whose elementwise
exponentials sum to exactly 1, hence within the 1e-5 tolerance: the output is
a log-probability distribution over the vocabulary. -/
theorem forward_pass_log_distribution (m : NLM) (idxs : List Nat) (V : Nat)
    (hV : 0 < V)
    (hEc : m.E.cols = V)
    (hw1 : m.w1.rows = 256 ∧ m.w1.cols = 256)
    (hb1 : m.b1.rows = 256 ∧ m.b1.cols = 1)
    (hw2 : m.w2.rows = V ∧ m.w2.cols = 256)
    (hb2 : m.b2.rows = V ∧ m.b2.cols = 1)
    (hne : idxs ≠ [])
    (hk : idxs.length * m.E.rows = 256) :
    ∃ y, NLM.forward_pass m (idxs.map (oneHotTensor V)) = Except.ok y
      ∧ y.rows = V ∧ y.cols = 1
      ∧ (∑ i ∈ Finset.range V, Real.exp (y.entry i 0)) = 1
      ∧ |(∑ i ∈ Finset.range V, Real.exp (y.entry i 0)) - 1| ≤ 1 / 100000 := by
  have hctx : ∀ c ∈ idxs.map (oneHotTensor V), c.rows = 1 ∧ c.cols = V := by
    intro c hc
    obtain ⟨i, _, hi⟩ := List.mem_map.mp hc
    rw [← hi]
    exact ⟨rfl, rfl⟩
  have hne2 : idxs.map (oneHotTensor V) ≠ [] := by
    intro hempty
    exact hne (List.map_eq_nil_iff.mp hempty)
  have hk2 : (idxs.map (oneHotTensor V)).length * m.E.rows = 256 := by
    rw [List.length_map]
    exact hk
  obtain ⟨ya, hfwd, hyar, hyac⟩ :=
    forward_pass_ok m (idxs.map (oneHotTensor V)) V hEc hw1 hb1 hw2 hb2 hctx hne2 hk2
  have hsum : ∑ i ∈ Finset.range V, Real.exp ((logSoftmaxDim0 ya).entry i 0) = 1 := by
    have := sum_exp_logSoftmaxDim0 ya 0 (by rw [hyar]; exact hV)
    rw [hyar] at this
    exact this
  refine ⟨logSoftmaxDim0 ya, hfwd, ?_, ?_, hsum, ?_⟩
  · show ya.rows = V
    exact hyar
  · show ya.cols = 1
    exact hyac
  · rw [hsum]
    norm_num

/-- C3 witness: the log-distribution statement on a concrete valid model. -/
theorem forward_pass_log_distribution_witness :
    ((0 : Nat) < 1
      ∧ nlm_valid.E.cols = 1
      ∧ (nlm_valid.w1.rows = 256 ∧ nlm_valid.w1.cols = 256)
      ∧ (nlm_valid.b1.rows = 256 ∧ nlm_valid.b1.cols = 1)
      ∧ (nlm_valid.w2.rows = 1 ∧ nlm_valid.w2.cols = 256)
      ∧ (nlm_valid.b2.rows = 1 ∧ nlm_valid.b2.cols = 1)
      ∧ ([0] : List Nat) ≠ []
      ∧ ([0] : List Nat).length * nlm_valid.E.rows = 256)
    ∧ ∃ y, NLM.forward_pass nlm_valid ([0].map (oneHotTensor 1)) = Except.ok y
        ∧ y.rows = 1 ∧ y.cols = 1
        ∧ (∑ i ∈ Finset.range 1, Real.exp (y.entry i 0)) = 1
        ∧ |(∑ i ∈ Finset.range 1, Real.exp (y.entry i 0)) - 1| ≤ 1 / 100000 :=
  ⟨⟨by decide, rfl, ⟨rfl, rfl⟩, ⟨rfl, rfl⟩, ⟨rfl, rfl⟩, ⟨rfl, rfl⟩, by decide, rfl⟩,
    forward_pass_log_distribution nlm_valid [0] 1 (by decide) rfl ⟨rfl, rfl⟩
      ⟨rfl, rfl⟩ ⟨rfl, rfl⟩ ⟨rfl, rfl⟩ (by decide) rfl⟩

/-- C7 (amended): construction performs no dimension validation and always
succeeds whatever k and embeddingLength are; when the context width times the
embedding length differs from the hard-coded hidden width 256 the mismatch
surfaces only inside forward_pass, as the shape error of the hidden-layer
matrix product. -/
theorem construction_unvalidated_defers_shape_error
    (V e k : Nat) (rand : Nat → Nat → Nat → ℝ) (idxs : List Nat)
    (hne : idxs ≠ []) (hmis : ¬ idxs.length * e = 256) :
    ∃ m, NLM.init V e k rand = Except.ok m
      ∧ m.forward_pass (idxs.map (oneHotTensor V))
          = Except.error "mat1 and mat2 shapes cannot be multiplied" := by
  refine ⟨{ embedding_length := e
            E := ⟨e, V, rand 0⟩
            w1 := ⟨256, 256, rand 1⟩
            b1 := ⟨256, 1, rand 2⟩
            w2 := ⟨V, 256, rand 3⟩
            b2 := ⟨V, 1, rand 4⟩ }, rfl, ?_⟩
  have hctx : ∀ c ∈ idxs.map (oneHotTensor V), c.rows = 1 ∧ c.cols = V := by
    intro c hc
    obtain ⟨i, _, hi⟩ := List.mem_map.mp hc
    rw [← hi]
    exact ⟨rfl, rfl⟩
  have hne2 : idxs.map (oneHotTensor V) ≠ [] :=
    fun hempty => hne (List.map_eq_nil_iff.mp hempty)
  obtain ⟨X, hX, hXr, hXc⟩ :=
    buildX_shape (⟨e, V, rand 0⟩ : Tensor) V e rfl (idxs.map (oneHotTensor V)) hne2 hctx
  simp only [NLM.forward_pass]
  rw [hX, bind_ok_eq]
  rw [matmul_err _ X (by
    show ¬ (256 : Nat) = X.rows
    rw [hXr, List.length_map]
    show ¬ (256 : Nat) = idxs.length * e
    exact fun hcon => hmis hcon.symm)]
  rw [bind_err_eq]

/-- C7 counterexample: constructing the mismatched model raises no
configuration error at construction time, refuting the claim as stated; the
shape failure happens only later, inside forward_pass. -/
theorem construction_no_error_counterexample :
    NLM.init 3 1 1 (fun _ _ _ => 0) = Except.ok nlm_mismatched
    ∧ NLM.forward_pass nlm_mismatched [oneHotTensor 3 0]
        = Except.error "mat1 and mat2 shapes cannot be multiplied" :=
  ⟨rfl, rfl⟩

/-- C7 witness: the amended statement at the concrete mismatched setting. -/
theorem construction_unvalidated_witness :
    (([0] : List Nat) ≠ [] ∧ ¬ ([0] : List Nat).length * 1 = 256)
    ∧ ∃ m, NLM.init 3 1 1 (fun _ _ _ => 0) = Except.ok m
        ∧ m.forward_pass ([0].map (oneHotTensor 3))
            = Except.error "mat1 and mat2 shapes cannot be multiplied" :=
  ⟨⟨by decide, by decide⟩,
    construction_unvalidated_defers_shape_error 3 1 1 (fun _ _ _ => 0) [0]
      (by decide) (by decide)⟩

/-! Sampler lemmas. -/

theorem lookupE_of_isSome (v : StrDict Nat) (w : String)
    (h : (dictGet? v w).isSome) :
    lookupE v w = Except.ok ((dictGet? v w).getD 0) := by
  obtain ⟨a, ha⟩ := Option.isSome_iff_exists.mp h
  simp only [lookupE, ha]
  rfl

theorem convert_to_one_hot_of_isSome (v : StrDict Nat) (w : String)
    (h : (dictGet? v w).isSome) :
    convert_to_one_hot w v
      = Except.ok (oneHotTensor v.length ((dictGet? v w).getD 0)) := by
  simp only [convert_to_one_hot]
  rw [lookupE_of_isSome v w h, bind_ok_eq]

theorem pyGet_ok (l : List α) (i : Nat) (h : i < l.length) :
    pyGet l (i : Int) = Except.ok (l.get ⟨i, h⟩) := by
  have h0 : ¬ ((i : Int) < 0) := by
    simp
  have h1 : (0 : Int) ≤ (i : Int) ∧ ((i : Int)).toNat < l.length := by
    constructor
    · exact Int.natCast_nonneg i
    · simpa using h
  simp only [pyGet, if_neg h0]
  rw [dif_pos h1]
  rfl

theorem mapM_ok_of_forall {f : α → Except ε γ} {g : α → γ} (l : List α)
    (h : ∀ x ∈ l, f x = Except.ok (g x)) : l.mapM f = Except.ok (l.map g) := by
  induction l with
  | nil => rfl
  | cons x xs ih =>
    rw [List.mapM_cons, h x (List.mem_cons_self x xs), bind_ok_eq,
      ih (fun y hy => h y (List.mem_cons_of_mem x hy)), bind_ok_eq]
    rfl

theorem drop_eq_get_cons (l : List α) (i : Nat) (h : i < l.length) :
    l.drop i = l.get ⟨i, h⟩ :: l.drop (i + 1) := by
  rw [List.get_eq_getElem]
  exact List.drop_eq_getElem_cons h

theorem padSentence_length (k : Nat) (sent : List String) :
    (padSentence k sent).length = k + (sent.length + 1) := by
  simp [padSentence]

theorem padSentence_get?_lt (k : Nat) (sent : List String) (j : Nat) (hj : j < k) :
    (padSentence k sent).get? j = some "<s>" := by
  rw [padSentence, List.append_assoc,
    List.get?_append (by simpa using hj),
    List.get?_eq_get (by simpa using hj)]
  rw [List.get_replicate]

theorem padSentence_get?_ge (k : Nat) (sent : List String) (t : Nat) :
    (padSentence k sent).get? (k + t) = (sent ++ ["</s>"]).get? t := by
  rw [padSentence, List.append_assoc, List.get?_append_right (by simp)]
  congr 1
  simp

theorem getD_eq_get (l : List α) (n : Nat) (d : α) (h : n < l.length) :
    l.getD n d = l.get ⟨n, h⟩ := by
  rw [List.getD_eq_getElem l d h, List.get_eq_getElem]

theorem pairsLoop_skip (v : StrDict Nat) (k : Nat) (sent : List String) :
    ∀ n j, j + n = k →
      pairsLoop v k (padSentence k sent) j ((padSentence k sent).drop j)
        = pairsLoop v k (padSentence k sent) k ((padSentence k sent).drop k) := by
  intro n
  induction n with
  | zero =>
    intro j hj
    rw [show j = k from by omega]
  | succ n ih =>
    intro j hj
    have hjk : j < k := by omega
    have hjlen : j < (padSentence k sent).length := by
      rw [padSentence_length]
      omega
    have hgetj : (padSentence k sent).get ⟨j, hjlen⟩ = "<s>" := by
      have hq := padSentence_get?_lt k sent j hjk
      rw [List.get?_eq_get hjlen] at hq
      exact Option.some.inj hq
    rw [drop_eq_get_cons _ j hjlen, hgetj]
    have hstep : pairsLoop v k (padSentence k sent) j
          ("<s>" :: (padSentence k sent).drop (j + 1))
        = pairsLoop v k (padSentence k sent) (j + 1)
            ((padSentence k sent).drop (j + 1)) := by
      simp only [pairsLoop]
      rw [if_neg (by simp)]
    rw [hstep]
    exact ih (j + 1) (by omega)

theorem pairsLoop_emit (v : StrDict Nat) (k : Nat) (sent : List String)
    (hs : "<s>" ∉ sent)
    (hv : ∀ w ∈ padSentence k sent, (dictGet? v w).isSome) :
    ∀ n i, i + n = sent.length + 1 →
      pairsLoop v k (padSentence k sent) (k + i) ((sent ++ ["</s>"]).drop i)
        = Except.ok ((List.range n).map (fun t => expectedPair v k sent (i + t))) := by
  intro n
  induction n with
  | zero =>
    intro i hi
    have hdrop : (sent ++ ["</s>"]).drop i = [] := by
      apply List.drop_eq_nil_of_le
      simp
      omega
    rw [hdrop]
    simp [pairsLoop]
  | succ n ih =>
    intro i hi
    have hilen : i < (sent ++ ["</s>"]).length := by
      simp
      omega
    have hklen : k + i < (padSentence k sent).length := by
      rw [padSentence_length]
      omega
    rw [drop_eq_get_cons _ i hilen]
    have hwmem : (sent ++ ["</s>"]).get ⟨i, hilen⟩ ∈ sent ++ ["</s>"] :=
      List.get_mem _ _ _
    have hpadmem : ∀ x ∈ sent ++ ["</s>"], x ∈ padSentence k sent := by
      intro x hx
      rw [padSentence, List.append_assoc]
      exact List.mem_append_right _ hx
    have hwne : ¬ ((sent ++ ["</s>"]).get ⟨i, hilen⟩ = "<s>") := by
      intro he
      rcases List.mem_append.mp hwmem with hin | hin
      · rw [he] at hin
        exact hs hin
      · rw [List.mem_singleton] at hin
        rw [hin] at he
        exact absurd he (by decide)
    have hwpad : (padSentence k sent).get ⟨k + i, hklen⟩
        = (sent ++ ["</s>"]).get ⟨i, hilen⟩ := by
      have hq := padSentence_get?_ge k sent i
      rw [List.get?_eq_get hklen, List.get?_eq_get hilen] at hq
      exact Option.some.inj hq
    simp only [pairsLoop]
    rw [if_pos hwne]
    rw [lookupE_of_isSome v _ (hv _ (hpadmem _ hwmem)), bind_ok_eq]
    have hrange : pyRange (((k + i : Nat) : Int) - ((k : Nat) : Int))
          ((k + i : Nat) : Int)
        = (List.range k).map (fun n2 => ((i + n2 : Nat) : Int)) := by
      rw [pyRange]
      have h1 : ((((k + i : Nat) : Int)) - ((((k + i : Nat) : Int)) - ((k : Nat) : Int))).toNat
          = k := by
        omega
      rw [h1]
      apply List.map_congr_left
      intro a _
      omega
    rw [hrange]
    have hmapM : ((List.range k).map (fun n2 => ((i + n2 : Nat) : Int))).mapM
          (fun i2 => do
            let w ← pyGet (padSentence k sent) i2
            convert_to_one_hot w v)
        = Except.ok (((List.range k).map (fun n2 => ((i + n2 : Nat) : Int))).map
            (fun i2 => oneHotTensor v.length
              ((dictGet? v ((padSentence k sent).getD i2.toNat "")).getD 0))) := by
      apply mapM_ok_of_forall
      intro x hx
      obtain ⟨n2, hn2, rfl⟩ := List.mem_map.mp hx
      rw [List.mem_range] at hn2
      have hlen2 : i + n2 < (padSentence k sent).length := by
        rw [padSentence_length]
        omega
      rw [pyGet_ok (padSentence k sent) (i + n2) hlen2, bind_ok_eq,
        convert_to_one_hot_of_isSome v _ (hv _ (List.get_mem _ _ _))]
      have htoNat : ((((i + n2) : Nat) : Int)).toNat = i + n2 := by
        omega
      rw [htoNat, getD_eq_get (padSentence k sent) (i + n2) "" hlen2]
    rw [hmapM, bind_ok_eq]
    rw [show k + i + 1 = k + (i + 1) from by omega]
    rw [ih (i + 1) (by omega), bind_ok_eq]
    have hlist :
        (((dictGet? v ((sent ++ ["</s>"]).get ⟨i, hilen⟩)).getD 0,
           ((List.range k).map (fun n2 => ((i + n2 : Nat) : Int))).map
             (fun i2 => oneHotTensor v.length
               ((dictGet? v ((padSentence k sent).getD i2.toNat "")).getD 0)))
          :: (List.range n).map (fun t => expectedPair v k sent (i + 1 + t)))
        = (List.range (n + 1)).map (fun t => expectedPair v k sent (i + t)) := by
      rw [List.range_succ_eq_map, List.map_cons, List.map_map]
      congr 1
      · show _ = expectedPair v k sent (i + 0)
        rw [expectedPair]
        simp only [Nat.add_zero]
        simp only [Prod.mk.injEq]
        constructor
        · rw [getD_eq_get (padSentence k sent) (k + i) "" hklen, hwpad]
        · apply List.map_congr_left
          intro n2 _
          simp only [Function.comp]
          have hidx : ((((i + n2) : Nat) : Int)).toNat = i + n2 := by
            omega
          rw [hidx]
      · rw [List.map_map]
        apply List.map_congr_left
        intro t _
        simp only [Function.comp]
        exact congrArg (expectedPair v k sent) (by omega)
    rw [hlist]

theorem sentencePairs_ok (v : StrDict Nat) (k : Nat) (sent : List String)
    (hs : "<s>" ∉ sent)
    (hv : ∀ w ∈ padSentence k sent, (dictGet? v w).isSome) :
    sentencePairs v k sent
      = Except.ok ((List.range (sent.length + 1)).map (expectedPair v k sent)) := by
  have hskip := pairsLoop_skip v k sent k 0 (by omega)
  have hdropk : (padSentence k sent).drop k = sent ++ ["</s>"] := by
    rw [padSentence, List.append_assoc,
      List.drop_append_of_le_length (by simp)]
    simp
  have hemit := pairsLoop_emit v k sent hs hv (sent.length + 1) 0 (by omega)
  rw [sentencePairs]
  have h0 : pairsLoop v k (padSentence k sent) 0 (padSentence k sent)
      = pairsLoop v k (padSentence k sent) 0 ((padSentence k sent).drop 0) := rfl
  rw [h0, hskip, hdropk]
  have h1 : pairsLoop v k (padSentence k sent) (k + 0) ((sent ++ ["</s>"]).drop 0)
      = pairsLoop v k (padSentence k sent) k (sent ++ ["</s>"]) := rfl
  rw [← h1, hemit]
  congr 1
  apply List.map_congr_left
  intro t _
  exact congrArg (expectedPair v k sent) (by omega)

/-- C1 (amended): for a sentence containing no literal start-marker token,
all of whose padded words the vocabulary contains, the sampler pads with k
start markers in front and one end marker at the back and emits for the
sentence exactly length + 1 pairs, one per non-start-marker position with
the end marker included: the pair at offset t carries the vocabulary index
of the word at padded position k + t and the one-hot encodings of the k
preceding padded positions, oldest first. -/
theorem sampler_pairs_per_sentence (v : StrDict Nat) (k : Nat) (sent : List String)
    (hs : "<s>" ∉ sent)
    (hv : ∀ w ∈ padSentence k sent, (dictGet? v w).isSome) :
    sentencePairs v k sent
      = Except.ok ((List.range (sent.length + 1)).map (expectedPair v k sent))
    ∧ ∀ ps, sentencePairs v k sent = Except.ok ps → ps.length = sent.length + 1 := by
  have h := sentencePairs_ok v k sent hs hv
  refine ⟨h, fun ps hps => ?_⟩
  rw [h] at hps
  have hinj := Except.ok.inj hps
  rw [← hinj]
  simp

/-- C1 counterexample: the one-word sentence holding the literal start-marker
token emits one example, not length + 1 = 2, because positions whose word is
the start marker are skipped even when the token comes from the sentence
itself. -/
theorem sampler_marker_sentence_counterexample :
    Except.map List.length (sentencePairs [("</s>", 0), ("<s>", 1)] 1 ["<s>"])
      = Except.ok 1
    ∧ Except.map List.length (sentencePairs [("</s>", 0), ("<s>", 1)] 1 ["<s>"])
      ≠ Except.ok 2 := by
  refine ⟨rfl, fun h => ?_⟩
  rw [show Except.map List.length (sentencePairs [("</s>", 0), ("<s>", 1)] 1 ["<s>"])
      = Except.ok 1 from rfl] at h
  exact absurd (Except.ok.inj h) (by decide)

/-- C1 witness: the worked example, sentence [the, cat] with k = 2, three
emitted examples. -/
theorem sampler_pairs_witness :
    ("<s>" ∉ (["the", "cat"] : List String)
      ∧ ∀ w ∈ padSentence 2 ["the", "cat"],
          (dictGet? [("</s>", 0), ("<s>", 1), ("cat", 2), ("the", 3)] w).isSome)
    ∧ (sentencePairs [("</s>", 0), ("<s>", 1), ("cat", 2), ("the", 3)] 2 ["the", "cat"]
        = Except.ok ((List.range ((["the", "cat"] : List String).length + 1)).map
            (expectedPair [("</s>", 0), ("<s>", 1), ("cat", 2), ("the", 3)] 2 ["the", "cat"]))
      ∧ ∀ ps, sentencePairs [("</s>", 0), ("<s>", 1), ("cat", 2), ("the", 3)] 2 ["the", "cat"]
            = Except.ok ps → ps.length = (["the", "cat"] : List String).length + 1) :=
  ⟨⟨by decide, by decide⟩,
    sampler_pairs_per_sentence _ 2 ["the", "cat"] (by decide) (by decide)⟩

/-- C6 (amended): each invocation of the sampler shuffles the caller's
sentence list in place: afterwards the caller's corpus holds the shuffled
order, a permutation of the original sentences rather than necessarily the
original order; over a marker-free in-vocabulary corpus the reordering does
not change the number of emitted examples, the sum of length + 1 over the
sentences. -/
theorem sampler_shuffle_in_place (shuffle : List (List String) → List (List String))
    (corpus : List (List String)) (v : StrDict Nat) (k : Nat)
    (hperm : (shuffle corpus).Perm corpus)
    (hs : ∀ sent ∈ corpus, "<s>" ∉ sent)
    (hv : ∀ sent ∈ corpus, ∀ w ∈ padSentence k sent, (dictGet? v w).isSome) :
    (generate_training_pairs shuffle corpus v k).1 = shuffle corpus
    ∧ (generate_training_pairs shuffle corpus v k).1.Perm corpus
    ∧ Except.map List.length (generate_training_pairs shuffle corpus v k).2
        = Except.ok ((corpus.map (fun sent => sent.length + 1)).sum) := by
  refine ⟨rfl, hperm, ?_⟩
  have hmapM : (shuffle corpus).mapM (sentencePairs v k)
      = Except.ok ((shuffle corpus).map (fun sent =>
          (List.range (sent.length + 1)).map (expectedPair v k sent))) := by
    apply mapM_ok_of_forall
    intro sent hsent
    have hmem : sent ∈ corpus := hperm.mem_iff.mp hsent
    exact sentencePairs_ok v k sent (hs sent hmem) (hv sent hmem)
  show Except.map List.length
      (Except.map List.flatten ((shuffle corpus).mapM (sentencePairs v k))) = _
  rw [hmapM]
  simp only [Except.map]
  congr 1
  rw [List.length_flatten, List.map_map]
  rw [show (List.length ∘ fun sent : List String =>
        (List.range (sent.length + 1)).map (expectedPair v k sent))
      = (fun sent : List String => sent.length + 1) from funext fun sent => by simp]
  exact (hperm.map (fun sent => sent.length + 1)).sum_eq

/-- C6 counterexample: with the reversing permutation as the outcome of
random.shuffle, the caller's two-sentence corpus is left reordered after the
call, refuting the claim that the corpus argument is unchanged. -/
theorem sampler_mutates_caller_corpus :
    (generate_training_pairs List.reverse [["a"], ["b"]] [("a", 0)] 1).1
      = [["b"], ["a"]]
    ∧ (generate_training_pairs List.reverse [["a"], ["b"]] [("a", 0)] 1).1
      ≠ [["a"], ["b"]] :=
  ⟨rfl, by decide⟩

/-- C6 witness: the amended statement at the reversing shuffle on a concrete
two-sentence corpus. -/
theorem sampler_shuffle_in_place_witness :
    ((List.reverse [["a"], ["b"]] : List (List String)).Perm [["a"], ["b"]]
      ∧ (∀ sent ∈ ([["a"], ["b"]] : List (List String)), "<s>" ∉ sent)
      ∧ (∀ sent ∈ ([["a"], ["b"]] : List (List String)), ∀ w ∈ padSentence 1 sent,
          (dictGet? [("</s>", 0), ("<s>", 1), ("a", 2), ("b", 3)] w).isSome))
    ∧ ((generate_training_pairs List.reverse [["a"], ["b"]]
          [("</s>", 0), ("<s>", 1), ("a", 2), ("b", 3)] 1).1
        = List.reverse [["a"], ["b"]]
      ∧ (generate_training_pairs List.reverse [["a"], ["b"]]
          [("</s>", 0), ("<s>", 1), ("a", 2), ("b", 3)] 1).1.Perm [["a"], ["b"]]
      ∧ Except.map List.length (generate_training_pairs List.reverse [["a"], ["b"]]
          [("</s>", 0), ("<s>", 1), ("a", 2), ("b", 3)] 1).2
          = Except.ok ((([["a"], ["b"]] : List (List String)).map
              (fun sent => sent.length + 1)).sum)) :=
  ⟨⟨by decide, by decide, by decide⟩,
    sampler_shuffle_in_place List.reverse [["a"], ["b"]]
      [("</s>", 0), ("<s>", 1), ("a", 2), ("b", 3)] 1
      (by decide) (by decide) (by decide)⟩

theorem sgdUpdate_taddU_zero (p t g : Tensor) (lr : ℝ) :
    sgdUpdate p (taddU (zeroGrad t) g) lr = sgdUpdate p g lr := by
  simp only [sgdUpdate, taddU, zeroGrad]
  congr 1
  funext i j
  ring

theorem sgdUpdateModel_accum_zero (m : NLM) (g : Grads) (lr : ℝ) :
    sgdUpdateModel m (accumGrads (zeroGradsFor m) g) lr = sgdUpdateModel m g lr := by
  simp only [sgdUpdateModel, accumGrads, zeroGradsFor, sgdUpdate_taddU_zero]

theorem except_bind_ok (x : Except ε α) : Bind.bind x Except.ok = x := by
  cases x <;> rfl

theorem except_map_err (f : α → γ) (e : ε) :
    Except.map f (Except.error e : Except ε α) = Except.error e := rfl

theorem except_map_ok (f : α → γ) (a : α) :
    Except.map f (Except.ok a : Except ε α) = Except.ok (f a) := rfl

theorem trainloop_eq_sgd (gradOf : GradFn) (lr : ℝ)
    (pairs : List (Nat × List Tensor)) (m : NLM) :
    pairs.foldlM (train_step gradOf lr) (m, zeroGradsFor m)
      = Except.map (fun m2 => (m2, zeroGradsFor m2))
          (pairs.foldlM (sgd_spec_step gradOf lr) m) := by
  induction pairs generalizing m with
  | nil => rfl
  | cons ex rest ih =>
    rw [List.foldlM_cons, List.foldlM_cons]
    cases hf : m.forward_pass ex.2 with
    | error e =>
      simp only [train_step, sgd_spec_step, hf, bind_err_eq, except_map_err]
    | ok ly =>
      simp only [train_step, sgd_spec_step, hf, bind_ok_eq]
      have hpair :
          (sgdUpdateModel m
             (accumGrads (zeroGradsFor m) (gradOf m (-(ly.entry ex.1 0)) ex)) lr,
           zeroGradsLike
             (accumGrads (zeroGradsFor m) (gradOf m (-(ly.entry ex.1 0)) ex)))
          = (sgdUpdateModel m (gradOf m (-(ly.entry ex.1 0)) ex) lr,
             zeroGradsFor (sgdUpdateModel m (gradOf m (-(ly.entry ex.1 0)) ex) lr)) := by
        rw [sgdUpdateModel_accum_zero]
        rfl
      rw [hpair]
      exact ih (sgdUpdateModel m (gradOf m (-(ly.entry ex.1 0)) ex) lr)

/-- C2 (amended): the source train takes no epoch count and runs exactly one
epoch. Over that single pass it is pure online SGD as the claim describes it
per example: loss = -log_y[target], fresh gradients of the loss for all five
parameters, each parameter decremented by learningRate times its gradient
elementwise, every accumulator reset to zero before the next example. The
result therefore coincides with the spec-modelled epoch-running trainer at
epochCount = 1, the final accumulators standing at zero. -/
theorem train_single_epoch_online_sgd
    (shuffle : List (List String) → List (List String)) (gradOf : GradFn)
    (m : NLM) (corpus : List (List String)) (vocabulary : StrDict Nat)
    (lr : ℝ) :
    (train shuffle gradOf m corpus vocabulary lr).2
      = Except.map (fun m2 => (m2, zeroGradsFor m2))
          (train_epochs_spec shuffle gradOf corpus vocabulary lr m 1) := by
  show Bind.bind (generate_training_pairs shuffle corpus vocabulary 4).2
      (fun pairs => pairs.foldlM (train_step gradOf lr) (m, zeroGradsFor m)) = _
  cases hp : (generate_training_pairs shuffle corpus vocabulary 4).2 with
  | error e =>
    simp only [train_epochs_spec, hp, bind_err_eq, except_map_err]
  | ok pairs =>
    simp only [train_epochs_spec, hp, bind_ok_eq, except_bind_ok]
    exact trainloop_eq_sgd gradOf lr pairs m

/-- C2 counterexample: with the identity shuffle, a constant all-ones
gradient oracle and learning rate 1 on the one-sentence corpus [[a]], the
source train moves E[0,0] from 0 to -2 (one pass over the two emitted
examples), while the epoch-running trainer the claim describes moves it to
-4 at epochCount = 2: train takes no epoch count and runs exactly one
pass. -/
theorem train_not_multi_epoch_counterexample :
    ∃ s1 m2,
      (train id onesGradFn cexModel [["a"]] cexVocab 1).2 = Except.ok s1
      ∧ train_epochs_spec id onesGradFn [["a"]] cexVocab 1 cexModel 2
          = Except.ok m2
      ∧ s1.1.E.entry 0 0 = -2 ∧ m2.E.entry 0 0 = -4
      ∧ s1.1.E.entry 0 0 ≠ m2.E.entry 0 0 := by
  refine ⟨_, _, rfl, rfl, ?_, ?_, ?_⟩ <;>
    norm_num [sgdUpdateModel, sgdUpdate, accumGrads, taddU, zeroGrad,
      zeroGradsLike, zeroGradsFor, zeroTensor, cexModel, onesGradFn]

/-- C8 (amended): get_cosine_similarity performs no zero-norm check: it
always returns the bare quotient dot(u,v) / (norm(u) * norm(v)). When both
norms are nonzero this is the claimed cosine, symmetric in its arguments,
and the self-similarity of any vector of nonzero norm is 1; a zero-norm
input is not signaled in any way and simply yields the junk value of
division by zero. -/
theorem cosine_similarity_formula (u v : List ℝ)
    (hu : normR u ≠ 0) (hv : normR v ≠ 0) :
    get_cosine_similarity u v = dotR u v / (normR u * normR v)
    ∧ get_cosine_similarity u v = get_cosine_similarity v u
    ∧ get_cosine_similarity u u = 1 := by
  refine ⟨rfl, ?_, ?_⟩
  · simp only [get_cosine_similarity]
    rw [show dotR u v = dotR v u from
        congrArg List.sum (List.zipWith_comm_of_comm _ mul_comm u v),
      mul_comm (normR u) (normR v)]
  · have hnn : 0 ≤ (u.map (fun a => a * a)).sum := by
      apply List.sum_nonneg
      intro x hx
      obtain ⟨a, _, rfl⟩ := List.mem_map.mp hx
      exact mul_self_nonneg a
    have hsne : (u.map (fun a => a * a)).sum ≠ 0 := by
      intro h0
      apply hu
      simp only [normR, h0, Real.sqrt_zero]
    simp only [get_cosine_similarity, dotR, normR, List.zipWith_same]
    rw [Real.mul_self_sqrt hnn]
    exact div_self hsne

/-- C8 counterexample: the zero vector flows straight through: its norm is 0
and the similarity call returns the plain junk quotient 0 with no signaled
condition of any kind, refuting the claimed explicit zero-norm signaling. -/
theorem cosine_zero_norm_silent_counterexample :
    normR [(0 : ℝ)] = 0
    ∧ get_cosine_similarity [(0 : ℝ)] [(0 : ℝ)] = 0 := by
  constructor
  · simp [normR]
  · simp [get_cosine_similarity, normR]

/-- C8 witness: the amended statement at the one-entry vector with value
1. -/
theorem cosine_similarity_formula_witness :
    (normR [(1 : ℝ)] ≠ 0 ∧ normR [(1 : ℝ)] ≠ 0)
    ∧ (get_cosine_similarity [(1 : ℝ)] [(1 : ℝ)]
        = dotR [(1 : ℝ)] [(1 : ℝ)] / (normR [(1 : ℝ)] * normR [(1 : ℝ)])
      ∧ get_cosine_similarity [(1 : ℝ)] [(1 : ℝ)]
        = get_cosine_similarity [(1 : ℝ)] [(1 : ℝ)]
      ∧ get_cosine_similarity [(1 : ℝ)] [(1 : ℝ)] = 1) := by
  have h1 : normR [(1 : ℝ)] ≠ 0 := by
    norm_num [normR, Real.sqrt_one]
  exact ⟨⟨h1, h1⟩, cosine_similarity_formula [(1 : ℝ)] [(1 : ℝ)] h1 h1⟩

theorem resolve_index_ok (vocabulary : StrDict Nat) (w : String) (u : Nat)
    (hu : dictGet? vocabulary "<unk>" = some u) :
    (if (dictGet? vocabulary w).isSome then lookupE vocabulary w
     else lookupE vocabulary "<unk>")
      = Except.ok ((dictGet? vocabulary w).getD u) := by
  cases hq : dictGet? vocabulary w with
  | none => simp [hq, lookupE, hu]
  | some a => simp [hq, lookupE]

/-- C9: when the vocabulary holds the unknown marker at some index u,
evaluate_wordsim never raises: on every list of word pairs it returns ok,
the value being the spearman correlation between the gold scores and the
cosine similarities of the embedding columns at the resolved indices, each
word contributing its own index when present and u when absent. -/
theorem evaluate_wordsim_unk_substitution (word_pairs : List (String × String))
    (gold_scores : List ℝ) (embedding_matrix : Tensor)
    (vocabulary : StrDict Nat) (spearman : List ℝ → List ℝ → ℝ × ℝ) (u : Nat)
    (hu : dictGet? vocabulary "<unk>" = some u) :
    evaluate_wordsim word_pairs gold_scores embedding_matrix vocabulary spearman
      = Except.ok (spearman
          (word_pairs.map (fun pairs =>
            get_cosine_similarity
              (tensorColumn embedding_matrix ((dictGet? vocabulary pairs.1).getD u))
              (tensorColumn embedding_matrix ((dictGet? vocabulary pairs.2).getD u))))
          gold_scores) := by
  have hmap : word_pairs.mapM (fun pairs =>
      Bind.bind
        (if (dictGet? vocabulary pairs.1).isSome then lookupE vocabulary pairs.1
         else lookupE vocabulary "<unk>")
        (fun word_one_index =>
          Bind.bind
            (if (dictGet? vocabulary pairs.2).isSome then lookupE vocabulary pairs.2
             else lookupE vocabulary "<unk>")
            (fun word_two_index =>
              Except.ok (get_cosine_similarity
                (tensorColumn embedding_matrix word_one_index)
                (tensorColumn embedding_matrix word_two_index)))))
      = Except.ok (word_pairs.map (fun pairs =>
          get_cosine_similarity
            (tensorColumn embedding_matrix ((dictGet? vocabulary pairs.1).getD u))
            (tensorColumn embedding_matrix ((dictGet? vocabulary pairs.2).getD u)))) := by
    apply mapM_ok_of_forall
    intro p _
    rw [resolve_index_ok vocabulary p.1 u hu, bind_ok_eq,
      resolve_index_ok vocabulary p.2 u hu, bind_ok_eq]
  simp only [evaluate_wordsim]
  rw [hmap, bind_ok_eq]

/-- C9 witness: a pair whose second word is out of vocabulary, evaluated
against a two-word vocabulary holding the unknown marker at index 0. -/
theorem evaluate_wordsim_unk_substitution_witness :
    dictGet? [("<unk>", 0), ("a", 1)] "<unk>" = some 0
    ∧ evaluate_wordsim [("a", "zzz")] [(1 : ℝ)] (zeroTensor 2 2)
        [("<unk>", 0), ("a", 1)] (fun _ _ => ((0 : ℝ), (0 : ℝ)))
      = Except.ok ((fun (_ _ : List ℝ) => ((0 : ℝ), (0 : ℝ)))
          ([("a", "zzz")].map (fun pairs =>
            get_cosine_similarity
              (tensorColumn (zeroTensor 2 2)
                ((dictGet? [("<unk>", 0), ("a", 1)] pairs.1).getD 0))
              (tensorColumn (zeroTensor 2 2)
                ((dictGet? [("<unk>", 0), ("a", 1)] pairs.2).getD 0))))
          [(1 : ℝ)]) :=
  ⟨rfl, evaluate_wordsim_unk_substitution [("a", "zzz")] [(1 : ℝ)]
    (zeroTensor 2 2) [("<unk>", 0), ("a", 1)] (fun _ _ => ((0 : ℝ), (0 : ℝ))) 0 rfl⟩
